import Mathlib

set_option maxRecDepth 1000000

/-!
Verification of the SPHERE crypto core (`backend/app/crypto/`): SHA-256 and
HMAC (`mac.py`), RSA (`rsa.py`), elliptic-curve operations (`ecc.py`), key
management (`key_management.py`) and the encryption composers
(`encryption_utils.py`), shallowly embedded over byte lists (`List Nat`) and
Python strings as `List Char`.  Python integer arithmetic is modelled by
`Nat`/`Int` with explicit `%`; fallible code returns `Option`/`Except`.
-/

/-! ### Byte and string preliminaries -/

/-- Big-endian `int.from_bytes(data, 'big')` (`rsa.py` `bytes_to_int`, and the
    word assembly in `mac.py` `_process_block`). -/
def bytesToNat (bs : List Nat) : Nat := bs.foldl (fun acc b => acc * 256 + b) 0

/-- Big-endian `num.to_bytes(length, 'big')` (`rsa.py` `int_to_bytes`).
    Produces exactly `len` bytes, the low `len` bytes of `num`. -/
def natToBytes : Nat → Nat → List Nat
  | 0, _ => []
  | l + 1, n => natToBytes l (n / 256) ++ [n % 256]

/-- Chunking worker, structurally recursive on a fuel bound so that kernel
    reduction works; any `fuel ≥ l.length` gives the intended behaviour. -/
def chunksAux (B : Nat) : Nat → List α → List (List α)
  | 0, _ => []
  | _, [] => []
  | fuel + 1, x :: xs => (x :: List.take B xs) :: chunksAux B fuel (List.drop B xs)

/-- Split a list into consecutive chunks of size `B + 1` (the per-block
    iteration `for i in range(0, len(xs), block_size)` with positive step). -/
def chunksSucc (B : Nat) (l : List α) : List (List α) := chunksAux B l.length l

/-- Lowercase hexadecimal digits, as used by Python `hex()` and `bytes.hex()`. -/
def hexDigit (n : Nat) : Char :=
  (("0123456789abcdef").toList).getD n '0'

/-- Two-digit lowercase hex of one byte (one byte of `bytes.hex()`). -/
def byteHex (b : Nat) : List Char := [hexDigit (b / 16), hexDigit (b % 16)]

/-- Python `bytes.hex()`: two lowercase hex digits per byte. -/
def bytesToHex (bs : List Nat) : List Char := bs.flatMap byteHex

/-! ### SHA-256 (`mac.py`, class `SHA256`) -/

/-- Right rotation of a 32-bit word (`SHA256._right_rotate`). -/
def rotr32 (value amount : Nat) : Nat :=
  ((value >>> amount) ||| (value <<< (32 - amount))) &&& 0xFFFFFFFF

/-- The eight working variables / hash state words (`mac.py` keeps them in a
    list `h` of length 8; a structure makes the fixed arity explicit). -/
structure Words8 where
  w0 : Nat
  w1 : Nat
  w2 : Nat
  w3 : Nat
  w4 : Nat
  w5 : Nat
  w6 : Nat
  w7 : Nat

/-- Initial hash values `SHA256.H0`. -/
def shaH0 : Words8 :=
  ⟨1779033703, 3144134277, 1013904242, 2773480762,
   1359893119, 2600822924, 528734635, 1541459225⟩

/-- Round constants `SHA256.K`. -/
def shaK : List Nat :=
  [1116352408, 1899447441, 3049323471, 3921009573,
   961987163, 1508970993, 2453635748, 2870763221,
   3624381080, 310598401, 607225278, 1426881987,
   1925078388, 2162078206, 2614888103, 3248222580,
   3835390401, 4022224774, 264347078, 604807628,
   770255983, 1249150122, 1555081692, 1996064986,
   2554220882, 2821834349, 2952996808, 3210313671,
   3336571891, 3584528711, 113926993, 338241895,
   666307205, 773529912, 1294757372, 1396182291,
   1695183700, 1986661051, 2177026350, 2456956037,
   2730485921, 2820302411, 3259730800, 3345764771,
   3516065817, 3600352804, 4094571909, 275423344,
   430227734, 506948616, 659060556, 883997877,
   958139571, 1322822218, 1537002063, 1747873779,
   1955562222, 2024104815, 2227730452, 2361852424,
   2428436474, 2756734187, 3204031479, 3329325298]

/-- Message-schedule extension step: with `i = w.length`, appends word `w[i]`
    from `w[i-16] + sigma0(w[i-15]) + w[i-7] + sigma1(w[i-2])` (the
    `for i in range(16, 64)` loop body in `_process_block`). -/
def shaExtendStep (w : List Nat) : List Nat :=
  let i := w.length
  let s0 := rotr32 (w.getD (i - 15) 0) 7 ^^^ rotr32 (w.getD (i - 15) 0) 18 ^^^
    (w.getD (i - 15) 0 >>> 3)
  let s1 := rotr32 (w.getD (i - 2) 0) 17 ^^^ rotr32 (w.getD (i - 2) 0) 19 ^^^
    (w.getD (i - 2) 0 >>> 10)
  w ++ [(w.getD (i - 16) 0 + s0 + w.getD (i - 7) 0 + s1) &&& 0xFFFFFFFF]

/-- One compression round (the `for i in range(64)` loop body).  `kw` is the
    pair `(K[i], w[i])`.  Python's `(~e) & g` on 32-bit-bounded values equals
    `(e XOR 0xFFFFFFFF) & g`. -/
def shaRound (st : Words8) (kw : Nat × Nat) : Words8 :=
  let S1 := rotr32 st.w4 6 ^^^ rotr32 st.w4 11 ^^^ rotr32 st.w4 25
  let ch := (st.w4 &&& st.w5) ^^^ ((st.w4 ^^^ 0xFFFFFFFF) &&& st.w6)
  let temp1 := (st.w7 + S1 + ch + kw.1 + kw.2) &&& 0xFFFFFFFF
  let S0 := rotr32 st.w0 2 ^^^ rotr32 st.w0 13 ^^^ rotr32 st.w0 22
  let maj := (st.w0 &&& st.w1) ^^^ (st.w0 &&& st.w2) ^^^ (st.w1 &&& st.w2)
  let temp2 := (S0 + maj) &&& 0xFFFFFFFF
  ⟨(temp1 + temp2) &&& 0xFFFFFFFF, st.w0, st.w1, st.w2,
   (st.w3 + temp1) &&& 0xFFFFFFFF, st.w4, st.w5, st.w6⟩

/-- Process one 64-byte block (`SHA256._process_block`). -/
def shaProcessBlock (block : List Nat) (h : Words8) : Words8 :=
  let w16 := (chunksSucc 3 block).map bytesToNat
  let w := shaExtendStep^[48] w16
  let f := (shaK.zip w).foldl shaRound h
  ⟨(h.w0 + f.w0) &&& 0xFFFFFFFF, (h.w1 + f.w1) &&& 0xFFFFFFFF,
   (h.w2 + f.w2) &&& 0xFFFFFFFF, (h.w3 + f.w3) &&& 0xFFFFFFFF,
   (h.w4 + f.w4) &&& 0xFFFFFFFF, (h.w5 + f.w5) &&& 0xFFFFFFFF,
   (h.w6 + f.w6) &&& 0xFFFFFFFF, (h.w7 + f.w7) &&& 0xFFFFFFFF⟩

/-- Padding (`SHA256._pad_message`): append `0x80`, zero-fill until the length
    is 56 mod 64, append the original bit length as 8 big-endian bytes.  The
    zero count `(120 - (l + 1) % 64) % 64` is the closed form of the `while`
    loop. -/
def shaPad (msg : List Nat) : List Nat :=
  let l := msg.length
  msg ++ [0x80] ++ List.replicate ((120 - (l + 1) % 64) % 64) 0 ++
    natToBytes 8 (l * 8)

/-- SHA-256 of a byte string (`SHA256.hash`); strings enter as UTF-8 bytes. -/
def shaHash (msg : List Nat) : List Nat :=
  let f := (chunksSucc 63 (shaPad msg)).foldl (fun h b => shaProcessBlock b h) shaH0
  natToBytes 4 f.w0 ++ natToBytes 4 f.w1 ++ natToBytes 4 f.w2 ++
    natToBytes 4 f.w3 ++ natToBytes 4 f.w4 ++ natToBytes 4 f.w5 ++
    natToBytes 4 f.w6 ++ natToBytes 4 f.w7

/-- SHA-256 as a lowercase hex string (`SHA256.hash_hex`). -/
def shaHashHex (msg : List Nat) : List Char := bytesToHex (shaHash msg)

/-! ### String utilities shared by the wire formats -/

/-- UTF-8 encoding of the ASCII strings that appear in the crypto core
    (hex/decimal serializations, key names); for code points below 128 the
    UTF-8 encoding is the code point itself. -/
def strToBytes (s : List Char) : List Nat := s.map Char.toNat

/-- Decoding of ASCII byte strings (`bytes.decode('utf-8')` restricted to the
    ASCII range; the byte-level model keeps plaintexts as bytes, so only the
    ASCII serializations ever need decoding). -/
def asciiDecode (bs : List Nat) : Option (List Char) :=
  bs.mapM (fun b => if b < 128 then some (Char.ofNat b) else none)

/-- Hex-digit emission worker, structurally recursive on fuel; any
    `fuel ≥ n` gives all digits of `n`, most significant first. -/
def natToHexAux : Nat → Nat → List Char
  | 0, _ => []
  | fuel + 1, n => if n = 0 then [] else natToHexAux fuel (n / 16) ++ [hexDigit (n % 16)]

/-- Python `hex(n)[2:]` for `n ≥ 0`: lowercase, no leading zeros, `"0"` for 0. -/
def natToHex (n : Nat) : List Char := if n = 0 then ['0'] else natToHexAux n n

/-- Decimal digits `'0'..'9'`. -/
def decDigit (n : Nat) : Char :=
  (['0', '1', '2', '3', '4', '5', '6', '7', '8', '9']).getD n '0'

/-- Decimal emission worker on fuel. -/
def natToDecAux : Nat → Nat → List Char
  | 0, _ => []
  | fuel + 1, n => if n = 0 then [] else natToDecAux fuel (n / 10) ++ [decDigit (n % 10)]

/-- Python `str(n)` for `n ≥ 0`. -/
def natToDec (n : Nat) : List Char := if n = 0 then ['0'] else natToDecAux n n

/-- Python `str(i)` for an `int` (negative values get a leading minus). -/
def intToDec (i : Int) : List Char :=
  if i < 0 then '-' :: natToDec i.natAbs else natToDec i.natAbs

/-- Value of one hex digit, accepting both cases like Python `int(s, 16)`. -/
def hexVal (c : Char) : Option Nat :=
  if '0' ≤ c ∧ c ≤ '9' then some (c.toNat - 48)
  else if 'a' ≤ c ∧ c ≤ 'f' then some (c.toNat - 87)
  else if 'A' ≤ c ∧ c ≤ 'F' then some (c.toNat - 55)
  else none

/-- Accumulating fold of hex digits (the digit-by-digit evaluation of
    `int(s, 16)`). -/
def hexFold (cs : List Char) (acc : Nat) : Option Nat :=
  cs.foldl (fun a c => a.bind fun a => (hexVal c).map fun v => a * 16 + v) (some acc)

/-- Python `int(s, 16)` on the strings produced here: fails on the empty
    string or any non-hex character (`ValueError` becomes `none`). -/
def hexParseNat (cs : List Char) : Option Nat :=
  if cs = [] then none else hexFold cs 0

/-- Value of one decimal digit. -/
def decVal (c : Char) : Option Nat :=
  if '0' ≤ c ∧ c ≤ '9' then some (c.toNat - 48) else none

/-- Accumulating fold of decimal digits. -/
def decFold (cs : List Char) (acc : Nat) : Option Nat :=
  cs.foldl (fun a c => a.bind fun a => (decVal c).map fun v => a * 10 + v) (some acc)

/-- Python `int(s)` on nonnegative decimal strings (`ValueError` is `none`). -/
def decParseNat (cs : List Char) : Option Nat :=
  if cs = [] then none else decFold cs 0

/-- Python `bytes.fromhex`: pairs of hex digits, failing on odd length or a
    non-hex character. -/
def hexPairsToBytes : List Char → Option (List Nat)
  | [] => some []
  | [_] => none
  | c1 :: c2 :: rest => do
    let v1 ← hexVal c1
    let v2 ← hexVal c2
    let r ← hexPairsToBytes rest
    pure ((v1 * 16 + v2) :: r)

/-- Python `s.split(',')`; on the empty string it returns `[""]`. -/
def splitComma : List Char → List (List Char)
  | [] => [[]]
  | c :: rest =>
    if c = ',' then [] :: splitComma rest
    else
      match splitComma rest with
      | [] => [[c]]
      | s :: ss => (c :: s) :: ss

/-- Python `','.join(parts)`. -/
def joinComma : List (List Char) → List Char
  | [] => []
  | [s] => s
  | s :: rest => s ++ ',' :: joinComma rest

/-- Python `bytes.rstrip(b'\x00')`. -/
def rstripZeros (bs : List Nat) : List Nat :=
  (bs.reverse.dropWhile (fun b => b = 0)).reverse

/-- Truncating byte-wise XOR, `bytes(a ^ b for a, b in zip(xs, ks))`. -/
def xorZip (xs ks : List Nat) : List Nat := List.zipWith (fun a b => a ^^^ b) xs ks

/-- Python list/bytes repetition `l * m`. -/
def listRepeat (l : List α) (m : Nat) : List α := (List.replicate m l).flatten

/-! ### HMAC-SHA256 (`mac.py`, class `HMAC`) -/

/-- Key preprocessing from `HMAC.__init__`: a key longer than the 64-byte
    block size is replaced by its hash, then zero-padded to 64 bytes. -/
def hmacKeyPad (key : List Nat) : List Nat :=
  let k := if 64 < key.length then shaHash key else key
  k ++ List.replicate (64 - k.length) 0

/-- Precomputed inner key `K' XOR 0x36`-repeated. -/
def hmacInnerKey (key : List Nat) : List Nat :=
  (hmacKeyPad key).map (fun b => b ^^^ 0x36)

/-- Precomputed outer key `K' XOR 0x5c`-repeated. -/
def hmacOuterKey (key : List Nat) : List Nat :=
  (hmacKeyPad key).map (fun b => b ^^^ 0x5c)

/-- `HMAC.compute`: `H(outer_key || H(inner_key || message))`. -/
def hmacCompute (key msg : List Nat) : List Nat :=
  shaHash (hmacOuterKey key ++ shaHash (hmacInnerKey key ++ msg))

/-- `HMAC.compute_hex`. -/
def hmacComputeHex (key msg : List Nat) : List Char := bytesToHex (hmacCompute key msg)

/-- The constant-time fold in `HMAC.verify`: OR together the XORs of the
    code points of corresponding characters. -/
def ctFold (l : List (Char × Char)) (acc : Nat) : Nat :=
  l.foldl (fun r ab => r ||| (ab.1.toNat ^^^ ab.2.toNat)) acc

/-- `HMAC.verify`: recompute, reject on length mismatch, then compare in
    constant time. -/
def hmacVerify (key msg : List Nat) (expected : List Char) : Bool :=
  let computed := hmacComputeHex key msg
  if computed.length ≠ expected.length then false
  else ctFold (computed.zip expected) 0 == 0

/-! ### RSA (`rsa.py`, class `RSA`) -/

/-- `RSA.encrypt_block`: `pow(block, e, n)`. -/
def rsaEncryptBlock (block e n : Nat) : Nat := block ^ e % n

/-- `RSA.decrypt_block`: `pow(block, d, n)`. -/
def rsaDecryptBlock (block d n : Nat) : Nat := block ^ d % n

/-- Bit-length worker on fuel; any `fuel ≥ n` gives the true bit length. -/
def bitLengthAux : Nat → Nat → Nat
  | 0, _ => 0
  | fuel + 1, n => if n = 0 then 0 else bitLengthAux fuel (n / 2) + 1

/-- Python `n.bit_length()`: 0 for 0, else `floor(log2 n) + 1`. -/
def bitLength (n : Nat) : Nat := bitLengthAux n n

/-- The per-key block size `(n.bit_length() - 1) // 8` from `RSA.encrypt` and
    `RSA.decrypt`. -/
def rsaBlockSize (n : Nat) : Nat := (bitLength n - 1) / 8

/-- Zero-pad the plaintext bytes to a multiple of the block size (the
    `while len(plaintext_bytes) % block_size != 0` loop in `RSA.encrypt`).
    The loop diverges (`ZeroDivisionError` in spirit: `% 0`) when the block
    size is zero, which `rsaEncrypt` reports as failure. -/
def rsaPad (msg : List Nat) (B : Nat) : List Nat :=
  msg ++ List.replicate ((B - msg.length % B) % B) 0

/-- `RSA.encrypt` acting on the UTF-8 bytes of the plaintext and returning
    the comma-joined lowercase-hex wire string.  `none` models the raised
    `ValueError` (`"Block too large for key size"`), and also the modulus
    being too small for a positive block size. -/
def rsaEncrypt (msg : List Nat) (e n : Nat) : Option (List Char) :=
  let B := rsaBlockSize n
  if B = 0 then none
  else
    let blocks := (chunksSucc (B - 1) (rsaPad msg B)).map bytesToNat
    if blocks.any (fun b => n ≤ b) then none
    else some (joinComma (blocks.map (fun b => natToHex (rsaEncryptBlock b e n))))

/-- The list comprehension `[int(block, 16) for block in s.split(',')]`:
    parse every piece, failing at the first `ValueError`. -/
def parseHexBlocks : List (List Char) → Option (List Nat)
  | [] => some []
  | s :: rest => do
    let b ← hexParseNat s
    let bs ← parseHexBlocks rest
    pure (b :: bs)

/-- `RSA.decrypt`: parse the comma-separated hex blocks (a parse failure is
    Python's `ValueError` from `int(block, 16)`), decrypt each block with
    `d`, reassemble `block_size` bytes per block, and strip trailing zero
    bytes.  The result stays at the byte level (`.decode('utf-8')` is the
    inverse of the encoding on round trips). -/
def rsaDecrypt (ciphertext : List Char) (d n : Nat) : Option (List Nat) := do
  let blocks ← parseHexBlocks (splitComma ciphertext)
  let B := rsaBlockSize n
  let bytes := (blocks.map (fun b => natToBytes B (rsaDecryptBlock b d n))).flatten
  pure (rstripZeros bytes)

/-! ### Elliptic curve arithmetic (`ecc.py`, classes `Point`, `EllipticCurve`, `ECC`) -/

/-- A point as `ecc.py` represents it: optional integer coordinates, with the
    point at infinity having both coordinates `None`. -/
structure IPoint where
  x : Option Int
  y : Option Int
deriving DecidableEq

/-- The `is_infinity` flag computed in `Point.__init__`. -/
def IPoint.isInf (P : IPoint) : Bool := P.x == none && P.y == none

/-- The point at infinity, `Point(None, None, curve)`. -/
def infPt : IPoint := ⟨none, none⟩

/-- Curve parameters as in `EllipticCurve.__init__` (`a`, `b`, `p`, generator
    coordinates, group order `n`). -/
structure ECurve where
  a : Int
  b : Int
  p : Nat
  gx : Int
  gy : Int
  n : Nat

/-- The stored generator point `curve.G`. -/
def ECurve.G (c : ECurve) : IPoint := ⟨some c.gx, some c.gy⟩

/-- Worker for `extended_gcd` (the same recursion appears in
    `RSA.extended_gcd` and `EllipticCurve.mod_inverse`), structurally
    recursive on fuel; any `fuel ≥ a` computes the true result
    `(gcd a b, x, y)` with `a*x + b*y = gcd a b`. -/
def egcdAux : Nat → Nat → Nat → Nat × Int × Int
  | fuel, a, b =>
    if a = 0 then (b, 0, 1)
    else
      match fuel with
      | 0 => (0, 0, 0)
      | fuel + 1 =>
        let (g, x1, y1) := egcdAux fuel (b % a) a
        (g, y1 - (b / a : Nat) * x1, x1)

/-- `extended_gcd(a, b)` on nonnegative inputs. -/
def egcd (a b : Nat) : Nat × Int × Int := egcdAux a a b

/-- `EllipticCurve.mod_inverse(a, m)`: run `extended_gcd(a % m, m)` and fail
    (Python raises `ValueError`) unless the gcd is 1; otherwise return
    `x % m`. -/
def modInverse (a : Int) (m : Nat) : Option Int :=
  let a' := (a % (m : Int)).toNat
  let (g, x, _) := egcd a' m
  if g ≠ 1 then none else some (x % (m : Int))

/-- The tangent-slope coordinate computation of `Point.double`, given the
    already-computed modular inverse `inv` of the denominator `2*y1 mod p`:
    `slope = ((3*x1^2 + a) mod p) * inv mod p`, then the standard `x3`, `y3`
    formulas reduced mod `p`. -/
def doubleCoords (c : ECurve) (x1 y1 inv : Int) : IPoint :=
  let slope := (3 * x1 * x1 + c.a) % (c.p : Int) * inv % (c.p : Int)
  let x3 := (slope * slope - 2 * x1) % (c.p : Int)
  let y3 := (slope * (x1 - x3) - y1) % (c.p : Int)
  ⟨some x3, some y3⟩

/-- `Point.double`.  `none` models a raised exception (a denominator with no
    modular inverse, or arithmetic on a half-formed point). -/
def pDouble (c : ECurve) (P : IPoint) : Option IPoint :=
  if P.isInf then some P
  else
    match P.x, P.y with
    | some x1, some y1 =>
      (modInverse ((2 * y1) % (c.p : Int)) c.p).map (doubleCoords c x1 y1)
    | _, _ => none

/-- The chord-slope coordinate computation of `Point.__add__`, given the
    modular inverse `inv` of `x2 - x1`:
    `slope = ((y2 - y1) * inv) mod p`, then `x3`, `y3` reduced mod `p`. -/
def chordCoords (c : ECurve) (x1 y1 x2 y2 inv : Int) : IPoint :=
  let slope := (y2 - y1) * inv % (c.p : Int)
  let x3 := (slope * slope - x1 - x2) % (c.p : Int)
  let y3 := (slope * (x1 - x3) - y1) % (c.p : Int)
  ⟨some x3, some y3⟩

/-- `Point.__add__`.  Mirrors the branch structure of the source: infinity
    absorption, equal `x` with equal `y` doubling, equal `x` with different
    `y` giving infinity, and the generic chord case. -/
def pAdd (c : ECurve) (P Q : IPoint) : Option IPoint :=
  if P.isInf then some Q
  else if Q.isInf then some P
  else
    match P.x, P.y, Q.x, Q.y with
    | some x1, some y1, some x2, some y2 =>
      if x1 = x2 then
        if y1 = y2 then pDouble c P else pure infPt
      else
        (modInverse (x2 - x1) c.p).map (chordCoords c x1 y1 x2 y2)
    | _, _, _, _ => none

/-- The `while k:` double-and-add loop of `Point.scalar_multiply`, on fuel;
    any `fuel ≥ k` runs the loop to completion.  Note the source doubles the
    addend on every iteration, including the last. -/
def pMulLoop (c : ECurve) : Nat → IPoint → IPoint → Nat → Option IPoint
  | _, result, _, 0 => some result
  | 0, _, _, _ => none
  | fuel + 1, result, addend, k =>
    match (if k % 2 = 1 then pAdd c result addend else pure result), pDouble c addend with
    | some result2, some addend2 => pMulLoop c fuel result2 addend2 (k / 2)
    | _, _ => none

/-- `Point.scalar_multiply` for nonnegative scalars (every call site in the
    repository passes a nonnegative integer, so the `k < 0` branch is dead
    code in this scope). -/
def pScalarMul (c : ECurve) (P : IPoint) (k : Nat) : Option IPoint :=
  if P.isInf then some P
  else if k = 0 then some infPt
  else pMulLoop c k infPt P k

/-- The secp256k1 parameters hard-coded in `ECC.__init__`. -/
def secp256k1 : ECurve :=
  ⟨0, 7,
   0xFFFFFFFFFFFFFFFFFFFFFFFFFFFFFFFFFFFFFFFFFFFFFFFFFFFFFFFEFFFFFC2F,
   0x79BE667EF9DCBBAC55A06295CE870B07029BFCDB2DCE28D959F2815B16F81798,
   0x483ADA7726A3C4655DA4FBFC0E1108A8FD17B448A68554199C47D08FFB10D4B8,
   0xFFFFFFFFFFFFFFFFFFFFFFFFFFFFFFFEBAAEDCE6AF48A03BBFD25E8CD0364141⟩

/-- Python `str()` of an optional coordinate: `str(None)` is `"None"`. -/
def coordStr : Option Int → List Char
  | some i => intToDec i
  | none => ['N', 'o', 'n', 'e']

/-- The keystream derivation shared by `ECC.encrypt` and `ECC.decrypt`:
    SHA-256 of `str(shared.x).encode() + str(shared.y).encode()`. -/
def eccKeystream (shared : IPoint) : List Nat :=
  shaHash (strToBytes (coordStr shared.x) ++ strToBytes (coordStr shared.y))

/-- `ECC.encrypt` on the UTF-8 bytes of the plaintext, with the ephemeral
    scalar `k` (drawn by `random.randint(1, n - 1)` in the source) supplied
    as an argument.  The hash-derived integer `m` is computed but never used,
    exactly as in the source. -/
def eccEncrypt (c : ECurve) (msg : List Nat) (pub : IPoint) (k : Nat) :
    Option (List Char) := do
  let plaintextHash := shaHash msg
  let m := bytesToNat (plaintextHash.take 16)
  let C1 ← pScalarMul c c.G k
  let shared ← pScalarMul c pub k
  let keyBytes := eccKeystream shared
  let encrypted := xorZip msg (listRepeat keyBytes (msg.length / keyBytes.length + 1))
  pure (coordStr C1.x ++ ',' :: coordStr C1.y ++ ',' :: bytesToHex encrypted)

/-- The encryption path exactly as §9 of the specification describes it with
    the vestigial `m` computation omitted: the ciphertext depends only on the
    plaintext bytes, `C1 = k·G`, and the keystream of the shared secret. -/
def eccEncryptNoHash (c : ECurve) (msg : List Nat) (pub : IPoint) (k : Nat) :
    Option (List Char) := do
  let C1 ← pScalarMul c c.G k
  let shared ← pScalarMul c pub k
  let keyBytes := eccKeystream shared
  let encrypted := xorZip msg (listRepeat keyBytes (msg.length / keyBytes.length + 1))
  pure (coordStr C1.x ++ ',' :: coordStr C1.y ++ ',' :: bytesToHex encrypted)

/-- `ECC.decrypt`, returning the decrypted bytes (the final
    `.decode('utf-8')` is the inverse of the plaintext encoding). -/
def eccDecrypt (c : ECurve) (ciphertext : List Char) (d : Nat) : Option (List Nat) :=
  match splitComma ciphertext with
  | c1xs :: c1ys :: c2hex :: _ => do
    let c1x ← decParseNat c1xs
    let c1y ← decParseNat c1ys
    let shared ← pScalarMul c ⟨some (c1x : Int), some (c1y : Int)⟩ d
    let keyBytes := eccKeystream shared
    let encrypted ← hexPairsToBytes c2hex
    pure (xorZip encrypted (listRepeat keyBytes (encrypted.length / keyBytes.length + 1)))
  | _ => none

/-- One iteration of the `while True:` loop of `ECC.sign` with the drawn `k`
    supplied as an argument: `some none` means the loop retries (`r == 0` or
    `s == 0`), `some (some (r, s))` is a returned signature, and `none` is a
    raised exception. -/
def eccSignStep (c : ECurve) (msg : List Nat) (d : Nat) (k : Nat) :
    Option (Option (Int × Int)) := do
  let z := bytesToNat (shaHash msg)
  let point ← pScalarMul c c.G k
  match point.x with
  | none => none
  | some px =>
    let r := px % (c.n : Int)
    if r = 0 then pure none
    else do
      let kinv ← modInverse (k : Int) c.n
      let s := kinv * ((z : Int) + r * (d : Int)) % (c.n : Int)
      if s = 0 then pure none else pure (some (r, s))

/-- `ECC.verify` on the UTF-8 bytes of the message; `none` models a raised
    exception inside the point arithmetic. -/
def eccVerify (c : ECurve) (msg : List Nat) (sig : Int × Int) (pub : IPoint) :
    Option Bool :=
  if ¬ (1 ≤ sig.1 ∧ sig.1 < (c.n : Int) ∧ 1 ≤ sig.2 ∧ sig.2 < (c.n : Int)) then
    pure false
  else do
    let z := bytesToNat (shaHash msg)
    let w ← modInverse sig.2 c.n
    let u1 := (z : Int) * w % (c.n : Int)
    let u2 := sig.1 * w % (c.n : Int)
    let point1 ← pScalarMul c c.G u1.toNat
    let point2 ← pScalarMul c pub u2.toNat
    let point ← pAdd c point1 point2
    if point.isInf then pure false
    else
      match point.x with
      | none => none
      | some px => pure (decide (sig.1 = px % (c.n : Int)))

/-! ### Key management (`key_management.py`, class `KeyManager`)

The key directory is a pure map from filenames to parsed file contents;
`save`/`rename`/`unlink` become functional updates.  Key generation and the
timestamp are randomness/clock inputs, passed as arguments. -/

/-- Content of a `{user_id}_public.json` record. -/
structure PubRecord where
  userId : List Char
  rsaE : Nat
  rsaN : Nat
  eccX : Int
  eccY : Int
  generatedAt : List Char
  expiresAt : List Char
deriving DecidableEq

/-- Content of a `{user_id}_private.json` record. -/
structure PrivRecord where
  userId : List Char
  rsaD : Nat
  rsaN : Nat
  eccPriv : Nat
  generatedAt : List Char
deriving DecidableEq

/-- A stored key file. -/
inductive KFile
  | pub (r : PubRecord)
  | priv (r : PrivRecord)
deriving DecidableEq

/-- The key storage directory. -/
def KeyFS : Type := List Char → Option KFile

/-- Functional update of the directory (a file write, or removal for
    `none`). -/
def fsSet (fs : KeyFS) (name : List Char) (v : Option KFile) : KeyFS :=
  fun m => if m = name then v else fs m

/-- `f"{user_id}_public.json"`. -/
def pubPath (uid : List Char) : List Char := uid ++ ("_public.json").toList

/-- `f"{user_id}_private.json"`. -/
def privPath (uid : List Char) : List Char := uid ++ ("_private.json").toList

/-- `f"{user_id}_public_{timestamp}.json.bak"`. -/
def archPubPath (uid ts : List Char) : List Char :=
  uid ++ ("_public_").toList ++ ts ++ (".json.bak").toList

/-- `f"{user_id}_private_{timestamp}.json.bak"`. -/
def archPrivPath (uid ts : List Char) : List Char :=
  uid ++ ("_private_").toList ++ ts ++ (".json.bak").toList

/-- `KeyManager.load_public_keys`: `None` when the file is missing (or does
    not parse as a public record). -/
def loadPublicKeys (fs : KeyFS) (uid : List Char) : Option PubRecord :=
  match fs (pubPath uid) with
  | some (.pub r) => some r
  | _ => none

/-- `KeyManager.load_private_keys`. -/
def loadPrivateKeys (fs : KeyFS) (uid : List Char) : Option PrivRecord :=
  match fs (privPath uid) with
  | some (.priv r) => some r
  | _ => none

/-- `KeyManager.get_rsa_public_key`. -/
def getRsaPublicKey (fs : KeyFS) (uid : List Char) : Option (Nat × Nat) :=
  (loadPublicKeys fs uid).map fun r => (r.rsaE, r.rsaN)

/-- `KeyManager.get_rsa_private_key`. -/
def getRsaPrivateKey (fs : KeyFS) (uid : List Char) : Option (Nat × Nat) :=
  (loadPrivateKeys fs uid).map fun r => (r.rsaD, r.rsaN)

/-- `KeyManager.get_ecc_public_key`. -/
def getEccPublicKey (fs : KeyFS) (uid : List Char) : Option IPoint :=
  (loadPublicKeys fs uid).map fun r => ⟨some r.eccX, some r.eccY⟩

/-- `KeyManager.get_ecc_private_key`. -/
def getEccPrivateKey (fs : KeyFS) (uid : List Char) : Option Nat :=
  (loadPrivateKeys fs uid).map fun r => r.eccPriv

/-- A generated key bundle (the result of `generate_user_keys`, with the
    randomness resolved). -/
structure KeyBundle where
  pub : PubRecord
  priv : PrivRecord

/-- `KeyManager.save_keys`: write the public record, then the private one. -/
def saveKeys (fs : KeyFS) (uid : List Char) (kb : KeyBundle) : KeyFS :=
  fsSet (fsSet fs (pubPath uid) (some (.pub kb.pub))) (privPath uid)
    (some (.priv kb.priv))

/-- `KeyManager.rotate_keys`: archive the current public and private records
    under timestamp-suffixed names (each only if it exists), then generate
    and save a replacement pair.  The fresh bundle and timestamp stand for
    the randomness and clock. -/
def rotateKeys (fs : KeyFS) (uid ts : List Char) (fresh : KeyBundle) : KeyFS :=
  let fs1 :=
    match fs (pubPath uid) with
    | some v => fsSet (fsSet fs (archPubPath uid ts) (some v)) (pubPath uid) none
    | none => fs
  let fs2 :=
    match fs1 (privPath uid) with
    | some v => fsSet (fsSet fs1 (archPrivPath uid ts) (some v)) (privPath uid) none
    | none => fs1
  saveKeys fs2 uid fresh

/-! ### Encryption composers (`encryption_utils.py`) -/

/-- The system-wide HMAC key of `DataEncryptor.__init__`. -/
def systemHmacKey : List Nat := strToBytes ("SPHERE_SYSTEM_HMAC_KEY_2025").toList

/-- The persisted envelope returned by `DataEncryptor.encrypt_data`. -/
structure Envelope where
  encryptedData : List Char
  mac : List Char
  encryptionMethod : List Char
  userId : List Char

/-- The failure taxonomy raised by the composers (`ValueError`s with distinct
    messages in the source, plus propagated primitive exceptions). -/
inductive CError
  | integrityFailure
  | keyNotFound
  | primitiveFailure
deriving DecidableEq

/-- `DataEncryptor.decrypt_data`: verify the envelope MAC first and fail
    closed, then fetch keys and peel the layers in reverse order. -/
def decryptData (fs : KeyFS) (env : Envelope) : Except CError (List Nat) :=
  if ¬ hmacVerify systemHmacKey (strToBytes env.encryptedData) env.mac then
    .error .integrityFailure
  else
    match getRsaPrivateKey fs env.userId with
    | none => .error .keyNotFound
    | some dn =>
      if env.encryptionMethod = ("RSA+ECC").toList then
        match getEccPrivateKey fs env.userId with
        | none => .error .keyNotFound
        | some eccPriv =>
          match eccDecrypt secp256k1 env.encryptedData eccPriv with
          | none => .error .primitiveFailure
          | some rsaCtBytes =>
            match asciiDecode rsaCtBytes with
            | none => .error .primitiveFailure
            | some rsaCt =>
              match rsaDecrypt rsaCt dn.1 dn.2 with
              | none => .error .primitiveFailure
              | some pt => .ok pt
      else
        match rsaDecrypt env.encryptedData dn.1 dn.2 with
        | none => .error .primitiveFailure
        | some pt => .ok pt

/-- `DataEncryptor.decrypt_field` after a successful `json.loads`: the
    `try/except` around `decrypt_data` catches every failure, logs, and
    returns `None`. -/
def decryptField (fs : KeyFS) (env : Envelope) : Option (List Nat) :=
  match decryptData fs env with
  | .ok v => some v
  | .error _ => none

/-- The persisted message envelope of `MessageEncryptor.encrypt_message`. -/
structure MsgEnvelope where
  encryptedMessage : List Char
  signatureR : Int
  signatureS : Int
  senderId : List Char
  recipientId : List Char

/-- `MessageEncryptor.decrypt_and_verify_message`: a missing recipient key or
    a primitive failure raises, but a missing *sender* public key returns the
    plaintext with `signature_valid = False`. -/
def decryptAndVerifyMessage (fs : KeyFS) (m : MsgEnvelope) :
    Except CError (List Nat × Bool) :=
  match getRsaPrivateKey fs m.recipientId with
  | none => .error .keyNotFound
  | some dn =>
    match rsaDecrypt m.encryptedMessage dn.1 dn.2 with
    | none => .error .primitiveFailure
    | some msgBytes =>
      match getEccPublicKey fs m.senderId with
      | none => .ok (msgBytes, false)
      | some q =>
        match eccVerify secp256k1 msgBytes (m.signatureR, m.signatureS) q with
        | none => .error .primitiveFailure
        | some b => .ok (msgBytes, b)

/-! ### Specification-side curve (Mathlib Weierstrass curves) -/

/-- The specification-side short Weierstrass curve `y^2 = x^3 + a*x + b` over
    `ZMod c.p` corresponding to an `ECurve`. -/
def specCurve (c : ECurve) : WeierstrassCurve.Affine (ZMod c.p) :=
  ⟨0, 0, 0, (c.a : ZMod c.p), (c.b : ZMod c.p)⟩

/-- The curve has no 2-torsion: no affine point has `2*y = 0`.  This is what
    makes the `Point.double` denominator `2*y` invertible, and on an odd
    prime field it also makes every curve point nonsingular. -/
def NoTwoTorsion (c : ECurve) : Prop :=
  ∀ x y : ZMod c.p, y ^ 2 = x ^ 3 + (c.a : ZMod c.p) * x + (c.b : ZMod c.p) → 2 * y ≠ 0

/-- Refinement relation between implementation points (reduced integer
    coordinates) and specification points. -/
inductive PRel (c : ECurve) : IPoint → (specCurve c).Point → Prop
  | inf : PRel c infPt 0
  | aff (x y : Int) (h : (specCurve c).Nonsingular (x : ZMod c.p) (y : ZMod c.p))
      (hx0 : 0 ≤ x) (hxp : x < (c.p : Int)) (hy0 : 0 ≤ y) (hyp : y < (c.p : Int)) :
      PRel c ⟨some x, some y⟩ (WeierstrassCurve.Affine.Point.some h)

/-- The canonical implementation point of a specification point (coordinates
    lifted to their least nonnegative representatives). -/
def pointOfSpec (c : ECurve) : (specCurve c).Point → IPoint
  | WeierstrassCurve.Affine.Point.zero => infPt
  | @WeierstrassCurve.Affine.Point.some _ _ _ x y _ => ⟨some (x.val : Int), some (y.val : Int)⟩

/-! ## Theorems -/

/-! ### Generic support lemmas -/

theorem natToBytes_length (l n : Nat) : (natToBytes l n).length = l := by
  induction l generalizing n with
  | zero => rfl
  | succ l ih => simp [natToBytes, ih]

theorem natToBytes_lt (l n : Nat) : ∀ b ∈ natToBytes l n, b < 256 := by
  induction l generalizing n with
  | zero => simp [natToBytes]
  | succ l ih =>
    intro b hb
    simp only [natToBytes, List.mem_append, List.mem_singleton] at hb
    rcases hb with hb | hb
    · exact ih _ b hb
    · omega

theorem shaHash_length (msg : List Nat) : (shaHash msg).length = 32 := by
  simp [shaHash, natToBytes_length]

theorem shaHash_lt (msg : List Nat) : ∀ b ∈ shaHash msg, b < 256 := by
  intro b hb
  simp only [shaHash, List.mem_append] at hb
  rcases hb with ((((((h | h) | h) | h) | h) | h) | h) | h <;>
    exact natToBytes_lt _ _ b h

theorem bytesToHex_length (bs : List Nat) : (bytesToHex bs).length = 2 * bs.length := by
  induction bs with
  | nil => rfl
  | cons b t ih => simp [bytesToHex, byteHex] at ih ⊢; omega

theorem hexDigit_mem (n : Nat) :
    hexDigit n ∈ ("0123456789abcdef").toList := by
  unfold hexDigit
  rcases Nat.lt_or_ge n 16 with h | h
  · interval_cases n <;> decide
  · rw [List.getD_eq_default _ _
      (show (("0123456789abcdef").toList).length ≤ n from le_trans (by decide) h)]
    decide

theorem bytesToHex_mem (bs : List Nat) :
    ∀ cc ∈ bytesToHex bs, cc ∈ ("0123456789abcdef").toList := by
  intro cc hcc
  simp only [bytesToHex, List.mem_flatMap, byteHex] at hcc
  obtain ⟨b, -, hb⟩ := hcc
  simp only [List.mem_cons, List.not_mem_nil, or_false] at hb
  rcases hb with rfl | rfl <;> exact hexDigit_mem _

/-! ### C1: SHA-256 -/

/-- C1.  `SHA256.hash_hex` reproduces the three FIPS 180-4 test vectors
    (empty string, `"abc"`, the 56-byte NIST vector) exactly; the hash is a
    function of the message bytes (hence deterministic), the digest is always
    32 bytes, and the hex rendering is always 64 lowercase hex characters. -/
theorem sha256_fips180_4 :
    (shaHashHex (strToBytes ("").toList)).asString =
      "e3b0c44298fc1c149afbf4c8996fb92427ae41e4649b934ca495991b7852b855" ∧
    (shaHashHex (strToBytes ("abc").toList)).asString =
      "ba7816bf8f01cfea414140de5dae2223b00361a396177a9cb410ff61f20015ad" ∧
    (shaHashHex (strToBytes
        ("abcdbcdecdefdefgefghfghighijhijkijkljklmklmnlmnomnopnopq").toList)).asString =
      "248d6a61d20638b8e5c026930c3e6039a33ce45964ff2167f6ecedd419db06c1" ∧
    (∀ msg : List Nat, (shaHash msg).length = 32) ∧
    (∀ msg : List Nat, (shaHashHex msg).length = 64) ∧
    (∀ msg : List Nat, ∀ cc ∈ shaHashHex msg,
      cc ∈ ("0123456789abcdef").toList) := by
  refine ⟨by decide, by decide, by decide, shaHash_length, ?_, ?_⟩
  · intro msg
    rw [shaHashHex, bytesToHex_length, shaHash_length]
  · intro msg
    exact bytesToHex_mem _

/-! ### C2: HMAC-SHA256 -/

theorem lor_eq_zero_iff (a b : Nat) : a ||| b = 0 ↔ a = 0 ∧ b = 0 := by
  constructor
  · intro h
    constructor <;>
    · apply Nat.eq_of_testBit_eq
      intro i
      have := congrArg (fun x => Nat.testBit x i) h
      simp [Nat.testBit_or] at this
      simp [this]
  · rintro ⟨rfl, rfl⟩; rfl

theorem charToNat_inj {a b : Char} (h : a.toNat = b.toNat) : a = b :=
  Char.eq_of_val_eq (UInt32.toNat.inj h)

theorem ctFold_eq_zero (l : List (Char × Char)) (acc : Nat) :
    ctFold l acc = 0 ↔ acc = 0 ∧ ∀ ab ∈ l, ab.1 = ab.2 := by
  induction l generalizing acc with
  | nil => simp [ctFold]
  | cons x t ih =>
    have hstep : ctFold (x :: t) acc = ctFold t (acc ||| (x.1.toNat ^^^ x.2.toNat)) := rfl
    rw [hstep, ih, lor_eq_zero_iff]
    constructor
    · rintro ⟨⟨h0, hx⟩, hrest⟩
      have hxy : x.1 = x.2 := charToNat_inj (Nat.xor_eq_zero.mp hx)
      refine ⟨h0, ?_⟩
      intro ab hab
      rcases List.mem_cons.mp hab with rfl | hab
      · exact hxy
      · exact hrest ab hab
    · rintro ⟨h0, hall⟩
      have hxy : x.1 = x.2 := hall x (by simp)
      refine ⟨⟨h0, by rw [hxy]; simp⟩, fun ab hab => hall ab (by simp [hab])⟩

theorem zip_forall_eq_iff :
    ∀ (xs ys : List Char), xs.length = ys.length →
      ((∀ ab ∈ xs.zip ys, ab.1 = ab.2) ↔ xs = ys) := by
  intro xs
  induction xs with
  | nil =>
    intro ys h
    cases ys with
    | nil => simp
    | cons y t => simp at h
  | cons x t ih =>
    intro ys h
    cases ys with
    | nil => simp at h
    | cons y u =>
      simp only [List.zip_cons_cons, List.mem_cons, List.cons.injEq]
      constructor
      · intro hall
        refine ⟨hall (x, y) (Or.inl rfl), ?_⟩
        exact (ih u (by simpa using h)).mp (fun ab hab => hall ab (Or.inr hab))
      · rintro ⟨rfl, rfl⟩
        intro ab hab
        rcases hab with rfl | hab
        · rfl
        · exact ((ih t rfl).mpr rfl) ab hab

/-- C2.  `HMAC.compute` is the RFC 2104 nested construction over the padded
    key (hashed down when longer than 64 bytes, zero-padded to 64), it
    reproduces RFC 4231 test vectors 1-3 exactly, and `HMAC.verify` accepts a
    tag iff it is exactly `compute_hex` of the message — hence any mutation
    of the message or tag that changes the computed tag is rejected. -/
theorem hmac_rfc4231 :
    (∀ key msg : List Nat,
      hmacCompute key msg = shaHash (hmacOuterKey key ++ shaHash (hmacInnerKey key ++ msg)) ∧
      hmacInnerKey key = (hmacKeyPad key).map (fun bb => bb ^^^ 0x36) ∧
      hmacOuterKey key = (hmacKeyPad key).map (fun bb => bb ^^^ 0x5c) ∧
      hmacKeyPad key = (if 64 < key.length then shaHash key else key) ++
        List.replicate (64 - (if 64 < key.length then shaHash key else key).length) 0) ∧
    (hmacComputeHex (List.replicate 20 0x0b) (strToBytes ("Hi There").toList)).asString =
      "b0344c61d8db38535ca8afceaf0bf12b881dc200c9833da726e9376c2e32cff7" ∧
    (hmacComputeHex (strToBytes ("Jefe").toList)
        (strToBytes ("what do ya want for nothing?").toList)).asString =
      "5bdcc146bf60754e6a042426089575c75a003f089d2739839dec58b964ec3843" ∧
    (hmacComputeHex (List.replicate 20 0xaa) (List.replicate 50 0xdd)).asString =
      "773ea91e36800e46854db8ebd09181a72959098b3ef8c122d9635514ced565fe" ∧
    (∀ (key msg : List Nat) (tag : List Char),
      hmacVerify key msg tag = true ↔ tag = hmacComputeHex key msg) := by
  refine ⟨fun key msg => ⟨rfl, rfl, rfl, rfl⟩, by decide, by decide, by decide, ?_⟩
  intro key msg tag
  unfold hmacVerify
  by_cases h : (hmacComputeHex key msg).length = tag.length
  · simp only [h, ne_eq, not_true_eq_false, if_false, ite_false, beq_iff_eq]
    rw [ctFold_eq_zero]
    simp only [true_and]
    rw [zip_forall_eq_iff _ _ h]
    exact eq_comm
  · simp only [h]
    simp only [ne_eq, h, not_false_eq_true, if_true]
    constructor
    · intro hf; cases hf
    · intro heq
      exact absurd (by rw [heq]) h

/-! ### Serialization lemmas -/

theorem hexVal_hexDigit (v : Nat) (hv : v < 16) : hexVal (hexDigit v) = some v := by
  interval_cases v <;> decide

theorem decVal_decDigit (v : Nat) (hv : v < 10) : decVal (decDigit v) = some v := by
  interval_cases v <;> decide

theorem hexFold_append (l1 l2 : List Char) (acc : Nat) (a : Nat)
    (h : hexFold l1 acc = some a) : hexFold (l1 ++ l2) acc = hexFold l2 a := by
  unfold hexFold at *
  rw [List.foldl_append, h]

theorem decFold_append (l1 l2 : List Char) (acc : Nat) (a : Nat)
    (h : decFold l1 acc = some a) : decFold (l1 ++ l2) acc = decFold l2 a := by
  unfold decFold at *
  rw [List.foldl_append, h]

theorem natToHexAux_parse :
    ∀ fuel n, n ≤ fuel → ∀ acc,
      hexFold (natToHexAux fuel n) acc =
        some (acc * 16 ^ (natToHexAux fuel n).length + n) := by
  intro fuel
  induction fuel with
  | zero =>
    intro n hn acc
    interval_cases n
    simp [natToHexAux, hexFold]
  | succ fuel ih =>
    intro n hn acc
    by_cases h0 : n = 0
    · subst h0; simp [natToHexAux, hexFold]
    · have hrec : n / 16 ≤ fuel := by
        have : n / 16 < n := Nat.div_lt_self (Nat.pos_of_ne_zero h0) (by omega)
        omega
      have hstep : natToHexAux (fuel + 1) n =
          natToHexAux fuel (n / 16) ++ [hexDigit (n % 16)] := by
        simp [natToHexAux, h0]
      rw [hstep, hexFold_append _ _ _ _ (ih (n / 16) hrec acc)]
      have hv : hexVal (hexDigit (n % 16)) = some (n % 16) :=
        hexVal_hexDigit _ (Nat.mod_lt _ (by omega))
      simp only [hexFold, List.foldl_cons, List.foldl_nil, Option.bind_some, hv,
        Option.map_some, Option.map_some', Option.bind, List.length_append,
        List.length_singleton]
      congr 1
      rw [pow_succ]
      have expand : (acc * 16 ^ (natToHexAux fuel (n / 16)).length + n / 16) * 16 + n % 16
          = acc * (16 ^ (natToHexAux fuel (n / 16)).length * 16) + (n / 16 * 16 + n % 16) := by
        ring
      rw [expand]
      congr 1
      omega

theorem natToDecAux_parse :
    ∀ fuel n, n ≤ fuel → ∀ acc,
      decFold (natToDecAux fuel n) acc =
        some (acc * 10 ^ (natToDecAux fuel n).length + n) := by
  intro fuel
  induction fuel with
  | zero =>
    intro n hn acc
    interval_cases n
    simp [natToDecAux, decFold]
  | succ fuel ih =>
    intro n hn acc
    by_cases h0 : n = 0
    · subst h0; simp [natToDecAux, decFold]
    · have hrec : n / 10 ≤ fuel := by
        have : n / 10 < n := Nat.div_lt_self (Nat.pos_of_ne_zero h0) (by omega)
        omega
      have hstep : natToDecAux (fuel + 1) n =
          natToDecAux fuel (n / 10) ++ [decDigit (n % 10)] := by
        simp [natToDecAux, h0]
      rw [hstep, decFold_append _ _ _ _ (ih (n / 10) hrec acc)]
      have hv : decVal (decDigit (n % 10)) = some (n % 10) :=
        decVal_decDigit _ (Nat.mod_lt _ (by omega))
      simp only [decFold, List.foldl_cons, List.foldl_nil, Option.bind_some, hv,
        Option.map_some, Option.map_some', Option.bind, List.length_append,
        List.length_singleton]
      congr 1
      rw [pow_succ]
      have expand : (acc * 10 ^ (natToDecAux fuel (n / 10)).length + n / 10) * 10 + n % 10
          = acc * (10 ^ (natToDecAux fuel (n / 10)).length * 10) + (n / 10 * 10 + n % 10) := by
        ring
      rw [expand]
      congr 1
      omega

theorem natToHexAux_ne_nil (n : Nat) (h0 : n ≠ 0) : natToHexAux n n ≠ [] := by
  cases n with
  | zero => exact absurd rfl h0
  | succ m =>
    simp [natToHexAux, h0]

theorem natToDecAux_ne_nil (n : Nat) (h0 : n ≠ 0) : natToDecAux n n ≠ [] := by
  cases n with
  | zero => exact absurd rfl h0
  | succ m =>
    simp [natToDecAux, h0]

theorem natToHex_parse (n : Nat) : hexParseNat (natToHex n) = some n := by
  by_cases h0 : n = 0
  · subst h0; decide
  · have hne := natToHexAux_ne_nil n h0
    have : natToHex n = natToHexAux n n := by simp [natToHex, h0]
    rw [this, hexParseNat, if_neg hne]
    simpa using natToHexAux_parse n n le_rfl 0

theorem natToDec_parse (n : Nat) : decParseNat (natToDec n) = some n := by
  by_cases h0 : n = 0
  · subst h0; decide
  · have hne := natToDecAux_ne_nil n h0
    have : natToDec n = natToDecAux n n := by simp [natToDec, h0]
    rw [this, decParseNat, if_neg hne]
    simpa using natToDecAux_parse n n le_rfl 0

theorem natToHexAux_mem :
    ∀ fuel n, ∀ cc ∈ natToHexAux fuel n,
      cc ∈ ("0123456789abcdef").toList := by
  intro fuel
  induction fuel with
  | zero => intro n c hc; simp [natToHexAux] at hc
  | succ fuel ih =>
    intro n c hc
    by_cases h0 : n = 0
    · simp [natToHexAux, h0] at hc
    · simp only [natToHexAux, h0, if_false, ite_false, List.mem_append,
        List.mem_singleton] at hc
      rcases hc with hc | rfl
      · exact ih _ c hc
      · exact hexDigit_mem _

theorem natToHex_no_comma (n : Nat) : ',' ∉ natToHex n := by
  intro hmem
  by_cases h0 : n = 0
  · subst h0; simp [natToHex] at hmem
  · rw [natToHex, if_neg h0] at hmem
    have := natToHexAux_mem n n ',' hmem
    exact absurd this (by decide)

theorem natToDecAux_mem :
    ∀ fuel n, ∀ cc ∈ natToDecAux fuel n,
      cc ∈ ['0', '1', '2', '3', '4', '5', '6', '7', '8', '9'] := by
  intro fuel
  induction fuel with
  | zero => intro n c hc; simp [natToDecAux] at hc
  | succ fuel ih =>
    intro n c hc
    by_cases h0 : n = 0
    · simp [natToDecAux, h0] at hc
    · simp only [natToDecAux, h0, if_false, ite_false, List.mem_append,
        List.mem_singleton] at hc
      rcases hc with hc | rfl
      · exact ih _ c hc
      · have hlt : n % 10 < 10 := Nat.mod_lt _ (by omega)
        unfold decDigit
        rcases Nat.lt_or_ge (n % 10) 10 with h | h
        · interval_cases hh : n % 10 <;> decide
        · omega

theorem natToDec_no_comma (n : Nat) : ',' ∉ natToDec n := by
  intro hmem
  by_cases h0 : n = 0
  · subst h0; simp [natToDec] at hmem
  · rw [natToDec, if_neg h0] at hmem
    have := natToDecAux_mem n n ',' hmem
    simp at this

theorem splitComma_no_comma (s : List Char) (h : ',' ∉ s) : splitComma s = [s] := by
  induction s with
  | nil => rfl
  | cons c r ih =>
    have hc : c ≠ ',' := fun hh => h (by simp [hh])
    have hr : ',' ∉ r := fun hh => h (by simp [hh])
    simp only [splitComma, hc, if_false, ite_false, ih hr]

theorem splitComma_append_comma (s t : List Char) (h : ',' ∉ s) :
    splitComma (s ++ ',' :: t) = s :: splitComma t := by
  induction s with
  | nil => simp [splitComma]
  | cons c r ih =>
    have hc : c ≠ ',' := fun hh => h (by simp [hh])
    have hr : ',' ∉ r := fun hh => h (by simp [hh])
    simp only [List.cons_append, splitComma, hc, if_false, ite_false, List.append_eq]
    rw [ih hr]

theorem splitComma_joinComma :
    ∀ (ss : List (List Char)), ss ≠ [] → (∀ s ∈ ss, ',' ∉ s) →
      splitComma (joinComma ss) = ss := by
  intro ss
  induction ss with
  | nil => intro h; exact absurd rfl h
  | cons s rest ih =>
    intro _ hnc
    cases rest with
    | nil => exact splitComma_no_comma s (hnc s (by simp))
    | cons s2 r2 =>
      have hj : joinComma (s :: s2 :: r2) = s ++ ',' :: joinComma (s2 :: r2) := rfl
      rw [hj, splitComma_append_comma s _ (hnc s (by simp))]
      rw [ih (by simp) (fun x hx => hnc x (by simp [hx]))]

/-! ### Byte-block lemmas -/

theorem bytesToNat_append_singleton (l : List Nat) (b : Nat) :
    bytesToNat (l ++ [b]) = bytesToNat l * 256 + b := by
  simp [bytesToNat, List.foldl_append]

theorem bytesToNat_acc_lt (bs : List Nat) :
    ∀ acc, (∀ b ∈ bs, b < 256) →
      bs.foldl (fun a b => a * 256 + b) acc < (acc + 1) * 256 ^ bs.length := by
  induction bs with
  | nil => intro acc _; simp
  | cons b t ih =>
    intro acc hb
    have hblt : b < 256 := hb b (by simp)
    have ht : ∀ x ∈ t, x < 256 := fun x hx => hb x (by simp [hx])
    have step := ih (acc * 256 + b) ht
    have hle : (acc * 256 + b + 1) * 256 ^ t.length ≤ (acc + 1) * 256 ^ (t.length + 1) := by
      rw [pow_succ]
      have : acc * 256 + b + 1 ≤ (acc + 1) * 256 := by omega
      calc (acc * 256 + b + 1) * 256 ^ t.length
          ≤ (acc + 1) * 256 * 256 ^ t.length := Nat.mul_le_mul_right _ this
        _ = (acc + 1) * (256 ^ t.length * 256) := by ring
    calc (b :: t).foldl (fun a b => a * 256 + b) acc
        = t.foldl (fun a b => a * 256 + b) (acc * 256 + b) := rfl
      _ < (acc * 256 + b + 1) * 256 ^ t.length := step
      _ ≤ (acc + 1) * 256 ^ (t.length + 1) := hle
      _ = (acc + 1) * 256 ^ (b :: t).length := by rw [List.length_cons]

theorem bytesToNat_lt (bs : List Nat) (hb : ∀ b ∈ bs, b < 256) :
    bytesToNat bs < 256 ^ bs.length := by
  have := bytesToNat_acc_lt bs 0 hb
  simpa [bytesToNat] using this

theorem natToBytes_bytesToNat (bs : List Nat) (hb : ∀ b ∈ bs, b < 256) :
    natToBytes bs.length (bytesToNat bs) = bs := by
  induction bs using List.reverseRecOn with
  | nil => rfl
  | append_singleton l b ih =>
    have hblt : b < 256 := hb b (by simp)
    have hl : ∀ x ∈ l, x < 256 := fun x hx => hb x (by simp [hx])
    rw [bytesToNat_append_singleton]
    have hlen : (l ++ [b]).length = l.length + 1 := by simp
    rw [hlen]
    show natToBytes l.length ((bytesToNat l * 256 + b) / 256) ++
      [(bytesToNat l * 256 + b) % 256] = l ++ [b]
    have hdiv : (bytesToNat l * 256 + b) / 256 = bytesToNat l := by omega
    have hmod : (bytesToNat l * 256 + b) % 256 = b := by omega
    rw [hdiv, hmod, ih hl]

theorem chunksAux_flatten (B : Nat) :
    ∀ (fuel : Nat) (l : List Nat), l.length ≤ fuel →
      (chunksAux B fuel l).flatten = l := by
  intro fuel
  induction fuel with
  | zero =>
    intro l hl
    have : l = [] := List.length_eq_zero.mp (by omega)
    subst this; rfl
  | succ fuel ih =>
    intro l hl
    cases l with
    | nil => rfl
    | cons x xs =>
      have hd : (List.drop B xs).length ≤ fuel := by
        simp only [List.length_drop]
        simp only [List.length_cons] at hl
        omega
      simp only [chunksAux, List.flatten_cons, ih _ hd]
      simp [List.take_append_drop]

theorem chunksAux_length (B : Nat) :
    ∀ (fuel : Nat) (l : List Nat), l.length ≤ fuel → (B + 1) ∣ l.length →
      ∀ ch ∈ chunksAux B fuel l, ch.length = B + 1 := by
  intro fuel
  induction fuel with
  | zero =>
    intro l hl _ ch hch
    have : l = [] := List.length_eq_zero.mp (by omega)
    subst this; simp [chunksAux] at hch
  | succ fuel ih =>
    intro l hl hdvd ch hch
    cases l with
    | nil => simp [chunksAux] at hch
    | cons x xs =>
      simp only [chunksAux, List.mem_cons] at hch
      simp only [List.length_cons] at hl hdvd
      obtain ⟨k, hk⟩ := hdvd
      have hkpos : 1 ≤ k := by
        rcases Nat.eq_zero_or_pos k with rfl | hpos
        · omega
        · exact hpos
      obtain ⟨k2, rfl⟩ : ∃ k2, k = k2 + 1 := ⟨k - 1, by omega⟩
      have hk2 : xs.length + 1 = (B + 1) * k2 + (B + 1) := by rw [hk]; ring
      have hxsB : B ≤ xs.length := by omega
      rcases hch with rfl | hch
      · simp [List.length_take, Nat.min_eq_left hxsB]
      · refine ih (List.drop B xs) ?_ ?_ ch hch
        · simp only [List.length_drop]; omega
        · simp only [List.length_drop]
          exact ⟨k2, by omega⟩

theorem chunksAux_mem (B : Nat) :
    ∀ (fuel : Nat) (l : List Nat), ∀ ch ∈ chunksAux B fuel l, ∀ b ∈ ch, b ∈ l := by
  intro fuel
  induction fuel with
  | zero => intro l ch hch; simp [chunksAux] at hch
  | succ fuel ih =>
    intro l ch hch b hb
    cases l with
    | nil => simp [chunksAux] at hch
    | cons x xs =>
      simp only [chunksAux, List.mem_cons] at hch
      rcases hch with rfl | hch
      · rcases List.mem_cons.mp hb with rfl | hb
        · simp
        · exact List.mem_cons_of_mem _ (List.take_subset _ _ hb)
      · have := ih (List.drop B xs) ch hch b hb
        exact List.mem_cons_of_mem _ (List.drop_subset _ _ this)

theorem chunksAux_ne_nil (B fuel : Nat) (l : List Nat) (hne : l ≠ [])
    (hl : 1 ≤ fuel) : chunksAux B fuel l ≠ [] := by
  cases fuel with
  | zero => omega
  | succ fuel =>
    cases l with
    | nil => exact absurd rfl hne
    | cons x xs => simp [chunksAux]

theorem rsaPad_dvd (msg : List Nat) (B : Nat) (hB : 0 < B) :
    B ∣ (rsaPad msg B).length := by
  simp only [rsaPad, List.length_append, List.length_replicate]
  rcases Nat.eq_zero_or_pos (msg.length % B) with hz | hpos
  · have hzz : (B - msg.length % B) % B = 0 := by rw [hz, Nat.sub_zero, Nat.mod_self]
    rw [hzz, Nat.add_zero]
    exact Nat.dvd_of_mod_eq_zero hz
  · have hmod : msg.length % B < B := Nat.mod_lt _ hB
    have h1 : (B - msg.length % B) % B = B - msg.length % B := by
      apply Nat.mod_eq_of_lt; omega
    rw [h1]
    have := Nat.div_add_mod msg.length B
    have hd : B * (msg.length / B + 1) = B * (msg.length / B) + B := by ring
    exact ⟨msg.length / B + 1, by omega⟩

theorem rsaPad_lt (msg : List Nat) (B : Nat) (hb : ∀ b ∈ msg, b < 256) :
    ∀ b ∈ rsaPad msg B, b < 256 := by
  intro b hmem
  simp only [rsaPad, List.mem_append, List.mem_replicate] at hmem
  rcases hmem with h | h
  · exact hb b h
  · omega

theorem dropWhile_replicate_append (p : Nat → Bool) (k : Nat) (l : List Nat)
    (hp : p 0 = true) :
    List.dropWhile p (List.replicate k 0 ++ l) = List.dropWhile p l := by
  induction k with
  | zero => rfl
  | succ k ih => simpa [List.replicate_succ, List.dropWhile_cons, hp] using ih

theorem rstripZeros_pad (msg : List Nat) (k : Nat) (hlast : msg.getLast? ≠ some 0) :
    rstripZeros (msg ++ List.replicate k 0) = msg := by
  unfold rstripZeros
  rw [List.reverse_append, List.reverse_replicate]
  rw [dropWhile_replicate_append _ _ _ (by simp)]
  cases hrev : msg.reverse with
  | nil =>
    have : msg = [] := by simpa using congrArg List.reverse hrev
    simp [this]
  | cons a rest =>
    have hhead : msg.getLast? = some a := by
      rw [← List.head?_reverse, hrev]; rfl
    have ha : a ≠ 0 := fun h => hlast (by rw [hhead, h])
    rw [List.dropWhile_cons_of_neg (by simpa using ha)]
    rw [← hrev, List.reverse_reverse]

/-! ### RSA correctness -/

theorem fermat_pow_aux (P : Nat) (hP : P.Prime) (t m : Nat) :
    m ^ ((P - 1) * t + 1) ≡ m [MOD P] := by
  haveI := Fact.mk hP
  have key : ((m : ZMod P)) ^ ((P - 1) * t + 1) = (m : ZMod P) := by
    by_cases h0 : (m : ZMod P) = 0
    · rw [h0, zero_pow (by omega)]
    · rw [pow_add, pow_mul, ZMod.pow_card_sub_one_eq_one h0, one_pow, pow_one, one_mul]
  have := (ZMod.natCast_eq_natCast_iff (m ^ ((P - 1) * t + 1)) m P).mp (by push_cast; exact key)
  exact this

theorem rsa_block_correct (p q e d m : Nat) (hp : p.Prime) (hq : q.Prime)
    (hpq : p ≠ q) (hed : e * d ≡ 1 [MOD (p - 1) * (q - 1)]) (hm : m < p * q) :
    (m ^ e % (p * q)) ^ d % (p * q) = m := by
  set φ := (p - 1) * (q - 1) with hφ
  have hp2 := hp.two_le
  have hq2 := hq.two_le
  have hφ2 : 2 ≤ φ := by
    rcases Nat.lt_or_ge p 3 with h3 | h3
    · have hpeq : p = 2 := by omega
      have : 3 ≤ q := by
        rcases Nat.lt_or_ge q 3 with hq3 | hq3
        · exact absurd (by omega : p = q) hpq
        · exact hq3
      have : 2 ≤ q - 1 := by omega
      calc 2 = 1 * 2 := by ring
        _ ≤ (p - 1) * (q - 1) := Nat.mul_le_mul (by omega) (by omega)
    · calc 2 = 2 * 1 := by ring
        _ ≤ (p - 1) * (q - 1) := Nat.mul_le_mul (by omega) (by omega)
  have hed1 : e * d % φ = 1 := by
    have := hed
    unfold Nat.ModEq at this
    rw [this, Nat.mod_eq_of_lt (by omega)]
  have hsplit : e * d = φ * (e * d / φ) + 1 := by
    have := Nat.div_add_mod (e * d) φ
    omega
  set c := e * d / φ with hc
  have hmodp : m ^ (e * d) ≡ m [MOD p] := by
    have : e * d = (p - 1) * ((q - 1) * c) + 1 := by rw [hsplit, hφ]; ring
    rw [this]
    exact fermat_pow_aux p hp _ m
  have hmodq : m ^ (e * d) ≡ m [MOD q] := by
    have : e * d = (q - 1) * ((p - 1) * c) + 1 := by rw [hsplit, hφ]; ring
    rw [this]
    exact fermat_pow_aux q hq _ m
  have hcop : Nat.Coprime p q := (Nat.coprime_primes hp hq).mpr hpq
  have hmodpq : m ^ (e * d) ≡ m [MOD p * q] :=
    (Nat.modEq_and_modEq_iff_modEq_mul hcop).mp ⟨hmodp, hmodq⟩
  have hchain : (m ^ e % (p * q)) ^ d ≡ m [MOD p * q] := by
    calc (m ^ e % (p * q)) ^ d
        ≡ (m ^ e) ^ d [MOD p * q] := (Nat.mod_modEq (m ^ e) (p * q)).pow d
      _ = m ^ (e * d) := by rw [← pow_mul]
      _ ≡ m [MOD p * q] := hmodpq
  have := hchain
  unfold Nat.ModEq at this
  rw [this, Nat.mod_eq_of_lt hm]

/-! ### Bit-length and block-size bounds -/

theorem bitLengthAux_bounds :
    ∀ fuel n, n ≤ fuel →
      n < 2 ^ bitLengthAux fuel n ∧ (n ≠ 0 → 2 ^ (bitLengthAux fuel n - 1) ≤ n) := by
  intro fuel
  induction fuel with
  | zero =>
    intro n hn
    interval_cases n
    exact ⟨by decide, fun h => absurd rfl h⟩
  | succ fuel ih =>
    intro n hn
    by_cases h0 : n = 0
    · subst h0
      exact ⟨by simp [bitLengthAux], fun h => absurd rfl h⟩
    · have hrec : n / 2 ≤ fuel := by
        have : n / 2 < n := Nat.div_lt_self (Nat.pos_of_ne_zero h0) (by omega)
        omega
      obtain ⟨hup, hlow⟩ := ih (n / 2) hrec
      have hstep : bitLengthAux (fuel + 1) n = bitLengthAux fuel (n / 2) + 1 := by
        simp [bitLengthAux, h0]
      set b := bitLengthAux fuel (n / 2) with hb
      rw [hstep]
      constructor
      · have hpow : 2 ^ (b + 1) = 2 * 2 ^ b := by rw [pow_succ]; ring
        omega
      · intro _
        by_cases hhalf : n / 2 = 0
        · have hn1 : n = 1 := by omega
          have hb0 : b = 0 := by rw [hb, hhalf]; cases fuel <;> simp [bitLengthAux]
          rw [hn1, hb0]
          simp
        · have hb1 : 1 ≤ b := by
            rw [hb]
            cases fuel with
            | zero => omega
            | succ fuel2 => simp [bitLengthAux, hhalf]
          have hlow2 := hlow hhalf
          have hpow : 2 ^ b = 2 * 2 ^ (b - 1) := by
            conv_lhs => rw [show b = (b - 1) + 1 by omega]
            rw [pow_succ]; ring
          simp only [Nat.add_sub_cancel]
          omega

theorem bitLength_lt (n : Nat) : n < 2 ^ bitLength n :=
  (bitLengthAux_bounds n n le_rfl).1

theorem bitLength_le (n : Nat) (h0 : n ≠ 0) : 2 ^ (bitLength n - 1) ≤ n :=
  (bitLengthAux_bounds n n le_rfl).2 h0

theorem rsaBlockSize_pos (n : Nat) (hn : 2 ^ 8 ≤ n) : 1 ≤ rsaBlockSize n := by
  have h9 : 9 ≤ bitLength n := by
    by_contra hcon
    have hle : bitLength n ≤ 8 := by omega
    have := bitLength_lt n
    have : n < 2 ^ 8 :=
      lt_of_lt_of_le this (Nat.pow_le_pow_right (by omega) hle)
    omega
  unfold rsaBlockSize
  omega

theorem rsaBlock_bound (n : Nat) (hn : 2 ^ 8 ≤ n) : 256 ^ rsaBlockSize n ≤ n := by
  have h0 : n ≠ 0 := by omega
  have h1 : 2 ^ (bitLength n - 1) ≤ n := bitLength_le n h0
  have h2 : 8 * rsaBlockSize n ≤ bitLength n - 1 := by
    unfold rsaBlockSize
    omega
  calc 256 ^ rsaBlockSize n = 2 ^ (8 * rsaBlockSize n) := by
        rw [show (256 : Nat) = 2 ^ 8 from rfl, ← pow_mul]
    _ ≤ 2 ^ (bitLength n - 1) := Nat.pow_le_pow_right (by omega) h2
    _ ≤ n := h1

theorem parseHexBlocks_natToHex (l : List Nat) :
    parseHexBlocks (l.map natToHex) = some l := by
  induction l with
  | nil => rfl
  | cons b t ih => simp [parseHexBlocks, natToHex_parse, ih]

theorem rsaEncrypt_spec (msg : List Nat) (e n : Nat) (hn : 2 ^ 8 ≤ n)
    (hb : ∀ b ∈ msg, b < 256) :
    rsaEncrypt msg e n = some (joinComma
      (((chunksSucc (rsaBlockSize n - 1) (rsaPad msg (rsaBlockSize n))).map bytesToNat).map
        (fun b => natToHex (rsaEncryptBlock b e n)))) ∧
    (∀ b ∈ (chunksSucc (rsaBlockSize n - 1) (rsaPad msg (rsaBlockSize n))).map bytesToNat,
      b < n) ∧
    (∀ ch ∈ chunksSucc (rsaBlockSize n - 1) (rsaPad msg (rsaBlockSize n)),
      ch.length = rsaBlockSize n ∧ ∀ x ∈ ch, x < 256) := by
  have hB := rsaBlockSize_pos n hn
  have hbound := rsaBlock_bound n hn
  have hdvd : (rsaBlockSize n - 1 + 1) ∣ (rsaPad msg (rsaBlockSize n)).length := by
    have := rsaPad_dvd msg (rsaBlockSize n) (by omega)
    rwa [show rsaBlockSize n - 1 + 1 = rsaBlockSize n by omega]
  have hch : ∀ ch ∈ chunksSucc (rsaBlockSize n - 1) (rsaPad msg (rsaBlockSize n)),
      ch.length = rsaBlockSize n ∧ ∀ x ∈ ch, x < 256 := by
    intro ch hmem
    constructor
    · have := chunksAux_length (rsaBlockSize n - 1) _ _ le_rfl hdvd ch hmem
      omega
    · intro x hx
      exact rsaPad_lt msg _ hb x (chunksAux_mem _ _ _ ch hmem x hx)
  have hblocks : ∀ b ∈ (chunksSucc (rsaBlockSize n - 1)
      (rsaPad msg (rsaBlockSize n))).map bytesToNat, b < n := by
    intro b hmem
    obtain ⟨ch, hchm, rfl⟩ := List.mem_map.mp hmem
    obtain ⟨hlen, hlt⟩ := hch ch hchm
    calc bytesToNat ch < 256 ^ ch.length := bytesToNat_lt ch hlt
      _ = 256 ^ rsaBlockSize n := by rw [hlen]
      _ ≤ n := hbound
  refine ⟨?_, hblocks, hch⟩
  unfold rsaEncrypt
  rw [if_neg (by omega : ¬ rsaBlockSize n = 0)]
  have hfalse : ((chunksSucc (rsaBlockSize n - 1)
      (rsaPad msg (rsaBlockSize n))).map bytesToNat).any (fun b => n ≤ b) = false := by
    rw [List.any_eq_false]
    intro x hx
    simpa using Nat.not_le.mpr (hblocks x hx)
  simp only [hfalse]
  rfl

/-! ### C3: RSA round trip (corrected) -/

/-- C3 counterexample.  `((5, 299), (53, 299))` is a valid RSA keypair
    (299 = 13 * 23, 5 * 53 = 265 ≡ 1 mod 264 = φ(299)), yet the length-0
    round trip fails: `encrypt("")` returns the empty wire string and
    `decrypt("")` raises `ValueError` from `int('', 16)` instead of
    returning `""`. -/
theorem rsa_roundtrip_len0_fails :
    Nat.Prime 13 ∧ Nat.Prime 23 ∧ 299 = 13 * 23 ∧
    5 * 53 % ((13 - 1) * (23 - 1)) = 1 % ((13 - 1) * (23 - 1)) ∧
    rsaEncrypt [] 5 299 = some [] ∧
    rsaDecrypt [] 53 299 = none := by
  refine ⟨by norm_num, by norm_num, by norm_num, by norm_num, by decide, by decide⟩

/-- C3 (amended).  For every valid RSA keypair (distinct primes `p ≠ q`,
    `n = p * q ≥ 2^8`, `e * d ≡ 1 mod φ(n)`) and every *nonempty* plaintext
    whose UTF-8 byte string does not end in a zero byte,
    `decrypt(encrypt(msg)) = msg`; the empty plaintext (counterexample
    above) and trailing-zero plaintexts (stripped by the documented
    `rstrip(b'\x00')` edge case) are excluded. -/
theorem rsa_roundtrip (p q e d n : Nat) (msg : List Nat)
    (hp : Nat.Prime p) (hq : Nat.Prime q) (hpq : p ≠ q) (hnpq : n = p * q)
    (hed : e * d ≡ 1 [MOD (p - 1) * (q - 1)])
    (hn : 2 ^ 8 ≤ n)
    (hbytes : ∀ b ∈ msg, b < 256)
    (hne : msg ≠ [])
    (hlast : msg.getLast? ≠ some 0) :
    ∃ ct, rsaEncrypt msg e n = some ct ∧ rsaDecrypt ct d n = some msg := by
  obtain ⟨henc, hblocks, hch⟩ := rsaEncrypt_spec msg e n hn hbytes
  have hB := rsaBlockSize_pos n hn
  refine ⟨_, henc, ?_⟩
  unfold rsaDecrypt
  have hpad_ne : rsaPad msg (rsaBlockSize n) ≠ [] := by
    intro hcon
    have := congrArg List.length hcon
    simp only [rsaPad, List.length_append, List.length_nil] at this
    have hmsg : msg.length ≠ 0 := fun hz => hne (List.length_eq_zero.mp hz)
    omega
  have hchs_ne : chunksSucc (rsaBlockSize n - 1) (rsaPad msg (rsaBlockSize n)) ≠ [] := by
    apply chunksAux_ne_nil
    · exact hpad_ne
    · have := List.length_pos.mpr hpad_ne
      omega
  have hmap_ne : (((chunksSucc (rsaBlockSize n - 1)
      (rsaPad msg (rsaBlockSize n))).map bytesToNat).map
        (fun b => natToHex (rsaEncryptBlock b e n))) ≠ [] := by
    simpa using hchs_ne
  have hsplit : splitComma (joinComma (((chunksSucc (rsaBlockSize n - 1)
      (rsaPad msg (rsaBlockSize n))).map bytesToNat).map
        (fun b => natToHex (rsaEncryptBlock b e n)))) =
      ((chunksSucc (rsaBlockSize n - 1) (rsaPad msg (rsaBlockSize n))).map bytesToNat).map
        (fun b => natToHex (rsaEncryptBlock b e n)) := by
    apply splitComma_joinComma _ hmap_ne
    intro s hs
    obtain ⟨b, -, rfl⟩ := List.mem_map.mp hs
    exact natToHex_no_comma _
  rw [hsplit]
  have hmapM : parseHexBlocks (((chunksSucc (rsaBlockSize n - 1)
      (rsaPad msg (rsaBlockSize n))).map bytesToNat).map
        (fun b => natToHex (rsaEncryptBlock b e n))) =
      some (((chunksSucc (rsaBlockSize n - 1)
        (rsaPad msg (rsaBlockSize n))).map bytesToNat).map
          (fun b => rsaEncryptBlock b e n)) := by
    have h1 : (((chunksSucc (rsaBlockSize n - 1)
        (rsaPad msg (rsaBlockSize n))).map bytesToNat).map
          (fun b => natToHex (rsaEncryptBlock b e n))) =
        ((((chunksSucc (rsaBlockSize n - 1)
          (rsaPad msg (rsaBlockSize n))).map bytesToNat).map
            (fun b => rsaEncryptBlock b e n)).map natToHex) := by
      rw [List.map_map, List.map_map, List.map_map]
      rfl
    rw [h1]
    exact parseHexBlocks_natToHex _
  rw [hmapM]
  show some (rstripZeros (List.map
      (fun b => natToBytes (rsaBlockSize n) (rsaDecryptBlock b d n))
      (List.map (fun b => rsaEncryptBlock b e n)
        (List.map bytesToNat
          (chunksSucc (rsaBlockSize n - 1) (rsaPad msg (rsaBlockSize n)))))).flatten) =
    some msg
  have hdecmap : ((((chunksSucc (rsaBlockSize n - 1)
      (rsaPad msg (rsaBlockSize n))).map bytesToNat).map
        (fun b => rsaEncryptBlock b e n)).map
          (fun b => natToBytes (rsaBlockSize n) (rsaDecryptBlock b d n))) =
      chunksSucc (rsaBlockSize n - 1) (rsaPad msg (rsaBlockSize n)) := by
    rw [List.map_map, List.map_map]
    rw [List.map_congr_left (g := id) ?heach]
    · exact List.map_id _
    case heach =>
      intro ch hchm
      obtain ⟨hlen, hlt⟩ := hch ch hchm
      have hblt : bytesToNat ch < n :=
        hblocks _ (List.mem_map.mpr ⟨ch, hchm, rfl⟩)
      show natToBytes (rsaBlockSize n)
        (rsaDecryptBlock (rsaEncryptBlock (bytesToNat ch) e n) d n) = id ch
      have hcorrect : rsaDecryptBlock (rsaEncryptBlock (bytesToNat ch) e n) d n
          = bytesToNat ch := by
        unfold rsaEncryptBlock rsaDecryptBlock
        rw [hnpq] at hblt ⊢
        exact rsa_block_correct p q e d (bytesToNat ch) hp hq hpq hed hblt
      rw [hcorrect, ← hlen, natToBytes_bytesToNat ch hlt]
      rfl
  rw [hdecmap]
  have hflat : (chunksSucc (rsaBlockSize n - 1)
      (rsaPad msg (rsaBlockSize n))).flatten = rsaPad msg (rsaBlockSize n) :=
    chunksAux_flatten _ _ _ le_rfl
  rw [hflat]
  unfold rsaPad
  rw [rstripZeros_pad msg _ hlast]

/-- C3 witness: the amended round trip at the concrete keypair
    `((5, 299), (53, 299))` and plaintext byte `0x68`. -/
theorem rsa_roundtrip_witness :
    ∃ ct, rsaEncrypt [104] 5 299 = some ct ∧ rsaDecrypt ct 53 299 = some [104] :=
  rsa_roundtrip 13 23 5 53 299 [104] (by norm_num) (by norm_num) (by norm_num)
    (by norm_num) (by decide) (by norm_num) (by decide) (by decide) (by decide)

/-! ### C10: the RSA "Block too large" branch is unreachable -/

/-- C10.  For every public key with `n.bit_length() ≥ 9` (so the block size
    `(bit_length(n)-1)//8` is at least 1), every block assembled inside
    `RSA.encrypt` from `block_size` bytes encodes an integer strictly below
    `2^(8·block_size) ≤ 2^(bit_length(n)-1) ≤ n`, so the
    `"Block too large for key size"` branch never fires and `encrypt`
    succeeds. -/
theorem rsa_encrypt_block_overflow_unreachable (e n : Nat) (msg : List Nat)
    (hbl : 9 ≤ bitLength n) (hb : ∀ b ∈ msg, b < 256) :
    (∀ block ∈ (chunksSucc (rsaBlockSize n - 1)
        (rsaPad msg (rsaBlockSize n))).map bytesToNat,
      block < 2 ^ (8 * rsaBlockSize n)) ∧
    2 ^ (8 * rsaBlockSize n) ≤ 2 ^ (bitLength n - 1) ∧
    2 ^ (bitLength n - 1) ≤ n ∧
    rsaEncrypt msg e n ≠ none := by
  have hn : 2 ^ 8 ≤ n := by
    have := bitLength_le n (by
      intro h0
      rw [h0] at hbl
      simp [bitLength, bitLengthAux] at hbl)
    calc (2 : Nat) ^ 8 ≤ 2 ^ (bitLength n - 1) :=
          Nat.pow_le_pow_right (by omega) (by omega)
      _ ≤ n := this
  obtain ⟨henc, -, hch⟩ := rsaEncrypt_spec msg e n hn hb
  refine ⟨?_, ?_, ?_, ?_⟩
  · intro block hmem
    obtain ⟨ch, hchm, rfl⟩ := List.mem_map.mp hmem
    obtain ⟨hlen, hlt⟩ := hch ch hchm
    calc bytesToNat ch < 256 ^ ch.length := bytesToNat_lt ch hlt
      _ = 2 ^ (8 * rsaBlockSize n) := by
          rw [hlen, show (256 : Nat) = 2 ^ 8 from rfl, ← pow_mul]
  · apply Nat.pow_le_pow_right (by omega)
    unfold rsaBlockSize
    omega
  · exact bitLength_le n (by omega)
  · rw [henc]
    exact Option.some_ne_none _

/-- C10 witness at the concrete key `(5, 299)` (`299.bit_length() = 9`) and
    the two-byte plaintext `[1, 2]`. -/
theorem rsa_encrypt_block_overflow_unreachable_witness :
    (∀ block ∈ (chunksSucc (rsaBlockSize 299 - 1)
        (rsaPad [1, 2] (rsaBlockSize 299))).map bytesToNat,
      block < 2 ^ (8 * rsaBlockSize 299)) ∧
    2 ^ (8 * rsaBlockSize 299) ≤ 2 ^ (bitLength 299 - 1) ∧
    2 ^ (bitLength 299 - 1) ≤ 299 ∧
    rsaEncrypt [1, 2] 5 299 ≠ none :=
  rsa_encrypt_block_overflow_unreachable 5 299 [1, 2] (by decide) (by decide)

/-! ### Modular-inverse correctness -/

theorem egcdAux_spec :
    ∀ fuel a b, a ≤ fuel →
      (egcdAux fuel a b).1 = Nat.gcd a b ∧
      (a : Int) * (egcdAux fuel a b).2.1 + (b : Int) * (egcdAux fuel a b).2.2
        = (Nat.gcd a b : Int) := by
  intro fuel
  induction fuel with
  | zero =>
    intro a b ha
    interval_cases a
    simp [egcdAux]
  | succ fuel ih =>
    intro a b ha
    by_cases h0 : a = 0
    · subst h0; simp [egcdAux]
    · have hrec : b % a ≤ fuel := by
        have : b % a < a := Nat.mod_lt _ (Nat.pos_of_ne_zero h0)
        omega
      obtain ⟨ihg, ihb⟩ := ih (b % a) a hrec
      rcases hE : egcdAux fuel (b % a) a with ⟨g, x1, y1⟩
      rw [hE] at ihg ihb
      simp only at ihg ihb
      have hstep : egcdAux (fuel + 1) a b = (g, y1 - ((b / a : Nat) : Int) * x1, x1) := by
        simp [egcdAux, h0, hE]
      rw [hstep]
      simp only
      have hgcd : Nat.gcd a b = Nat.gcd (b % a) a := Nat.gcd_rec a b
      constructor
      · rw [hgcd]; exact ihg
      · rw [hgcd]
        have hb : (b : Int) = (a : Int) * ((b / a : Nat) : Int) + ((b % a : Nat) : Int) := by
          exact_mod_cast (Nat.div_add_mod b a).symm
        rw [← ihg] at ihb ⊢
        linear_combination ihb + x1 * hb

theorem modInverse_spec (m : Nat) (hm : 0 < m) (a : Int)
    (hcop : Nat.gcd ((a % (m : Int)).toNat) m = 1) :
    ∃ v, modInverse a m = some v ∧ 0 ≤ v ∧ v < (m : Int) ∧
      (a * v) % (m : Int) = 1 % (m : Int) := by
  have hmz : (m : Int) ≠ 0 := by exact_mod_cast (by omega : m ≠ 0)
  set a' := (a % (m : Int)).toNat with ha'
  obtain ⟨hg, hbez⟩ := egcdAux_spec a' a' m le_rfl
  rcases hE : egcdAux a' a' m with ⟨g, xx, yy⟩
  rw [hE] at hg hbez
  simp only at hg hbez
  have hg1 : g = 1 := by rw [hg, hcop]
  have hgcd1 : Nat.gcd a' m = 1 := by rw [← hg, hg1]
  have hsome : modInverse a m = some (xx % (m : Int)) := by
    show (match egcd ((a % (m : Int)).toNat) m with
      | (g, x, _) => if g ≠ 1 then none else some (x % (m : Int))) = some (xx % (m : Int))
    rw [show egcd ((a % (m : Int)).toNat) m = (g, xx, yy) from hE, hg1]
    simp
  refine ⟨xx % (m : Int), hsome, Int.emod_nonneg _ hmz,
    Int.emod_lt_of_pos _ (by exact_mod_cast hm), ?_⟩
  have hcast : (a' : Int) = a % (m : Int) := Int.toNat_of_nonneg (Int.emod_nonneg a hmz)
  have hbez2 : (a % (m : Int)) * xx + (m : Int) * yy = 1 := by
    rw [← hcast]
    rw [hgcd1] at hbez
    exact_mod_cast hbez
  calc (a * (xx % (m : Int))) % (m : Int)
      = (a % (m : Int)) * xx % (m : Int) := by
        rw [Int.mul_emod, Int.mul_emod (a % (m : Int)) xx,
          Int.emod_emod_of_dvd _ dvd_rfl, Int.emod_emod_of_dvd _ dvd_rfl]
    _ = (1 - (m : Int) * yy) % (m : Int) := by
        congr 1; linarith [hbez2]
    _ = 1 % (m : Int) := by
        rw [sub_eq_add_neg, show -((m : Int) * yy) = (m : Int) * (-yy) by ring,
          Int.add_mul_emod_self_left]

theorem int_cast_emod (p : Nat) (z : Int) :
    ((z % (p : Int) : Int) : ZMod p) = (z : ZMod p) := by
  rw [ZMod.intCast_eq_intCast_iff']
  exact Int.emod_emod_of_dvd z dvd_rfl

theorem int_cast_inj_reduced (p : Nat) (x y : Int)
    (hx0 : 0 ≤ x) (hxp : x < (p : Int)) (hy0 : 0 ≤ y) (hyp : y < (p : Int))
    (h : (x : ZMod p) = (y : ZMod p)) : x = y := by
  rw [ZMod.intCast_eq_intCast_iff'] at h
  rwa [Int.emod_eq_of_lt hx0 hxp, Int.emod_eq_of_lt hy0 hyp] at h

theorem int_cast_ne_zero_iff_not_dvd (p : Nat) (z : Int) :
    (z : ZMod p) ≠ 0 ↔ ¬ ((p : Int) ∣ z) := by
  rw [Ne, ZMod.intCast_zmod_eq_zero_iff_dvd]

theorem modInverse_prime (p : Nat) (hp : p.Prime) (z : Int)
    (hz : (z : ZMod p) ≠ 0) :
    ∃ v, modInverse z p = some v ∧ 0 ≤ v ∧ v < (p : Int) ∧
      (z : ZMod p) * (v : ZMod p) = 1 := by
  have hp0 : 0 < p := hp.pos
  have hpz : (p : Int) ≠ 0 := by exact_mod_cast hp0.ne'
  have hcop : Nat.gcd ((z % (p : Int)).toNat) p = 1 := by
    have hdvd := Nat.gcd_dvd_right ((z % (p : Int)).toNat) p
    rcases Nat.Prime.eq_one_or_self_of_dvd hp _ hdvd with h1 | hpp
    · exact h1
    · exfalso
      apply (int_cast_ne_zero_iff_not_dvd p z).mp hz
      have hgl := Nat.gcd_dvd_left ((z % (p : Int)).toNat) p
      rw [hpp] at hgl
      have hdr : (p : Int) ∣ z % (p : Int) := by
        have := Int.ofNat_dvd.mpr hgl
        rwa [Int.toNat_of_nonneg (Int.emod_nonneg z hpz)] at this
      have hsum := Int.ediv_add_emod z (p : Int)
      have hdl : (p : Int) ∣ (p : Int) * (z / (p : Int)) := Dvd.intro _ rfl
      rw [← hsum]
      exact dvd_add hdl hdr
  obtain ⟨v, hv, hv0, hvp, hvm⟩ := modInverse_spec p hp0 z hcop
  refine ⟨v, hv, hv0, hvp, ?_⟩
  have := (ZMod.intCast_eq_intCast_iff' (z * v) 1 p).mpr hvm
  push_cast at this
  exact this

/-! ### Curve refinement basics -/

theorem specCurve_equation_iff (c : ECurve) (X Y : ZMod c.p) :
    (specCurve c).Equation X Y ↔
      Y ^ 2 = X ^ 3 + (c.a : ZMod c.p) * X + (c.b : ZMod c.p) := by
  rw [WeierstrassCurve.Affine.equation_iff]
  show Y ^ 2 + 0 * X * Y + 0 * Y = X ^ 3 + 0 * X ^ 2 + (c.a : ZMod c.p) * X + (c.b : ZMod c.p) ↔ _
  constructor <;> intro h <;> linear_combination h

theorem specCurve_negY (c : ECurve) (X Y : ZMod c.p) :
    (specCurve c).negY X Y = -Y := by
  show -Y - 0 * X - 0 = -Y
  ring

theorem specCurve_nonsingular (c : ECurve) (hno2 : NoTwoTorsion c) (X Y : ZMod c.p)
    (heq : (specCurve c).Equation X Y) : (specCurve c).Nonsingular X Y := by
  rw [WeierstrassCurve.Affine.nonsingular_iff]
  refine ⟨heq, Or.inr ?_⟩
  have h2 := hno2 X Y ((specCurve_equation_iff c X Y).mp heq)
  intro hcon
  apply h2
  show (2 : ZMod c.p) * Y = 0
  have : Y = -Y - 0 * X - 0 := hcon
  linear_combination this

theorem PRel.of_cast (c : ECurve) (x y : Int) (X Y : ZMod c.p)
    (h : (specCurve c).Nonsingular X Y)
    (hx : (x : ZMod c.p) = X) (hy : (y : ZMod c.p) = Y)
    (hx0 : 0 ≤ x) (hxp : x < (c.p : Int)) (hy0 : 0 ≤ y) (hyp : y < (c.p : Int)) :
    PRel c ⟨some x, some y⟩ (WeierstrassCurve.Affine.Point.some h) := by
  subst hx
  subst hy
  exact PRel.aff x y h hx0 hxp hy0 hyp

theorem PRel_inf_right (c : ECurve) {S : (specCurve c).Point}
    (h : PRel c infPt S) : S = 0 := by
  cases h
  rfl

theorem PRel_pointOfSpec (c : ECurve) (hp : 0 < c.p) {P : IPoint}
    {S : (specCurve c).Point} (h : PRel c P S) : P = pointOfSpec c S := by
  haveI : NeZero c.p := ⟨by omega⟩
  cases h with
  | inf => rfl
  | aff x y hns hx0 hxp hy0 hyp =>
    show (⟨some x, some y⟩ : IPoint) = ⟨some (((x : ZMod c.p)).val : Int), some (((y : ZMod c.p)).val : Int)⟩
    have hx : (((x : ZMod c.p)).val : Int) = x := by
      rw [ZMod.val_intCast]
      exact Int.emod_eq_of_lt hx0 hxp
    have hy : (((y : ZMod c.p)).val : Int) = y := by
      rw [ZMod.val_intCast]
      exact Int.emod_eq_of_lt hy0 hyp
    rw [hx, hy]

theorem PRel_left_unique (c : ECurve) (hp : 0 < c.p) {P P2 : IPoint}
    {S : (specCurve c).Point} (h : PRel c P S) (h2 : PRel c P2 S) : P = P2 := by
  rw [PRel_pointOfSpec c hp h, PRel_pointOfSpec c hp h2]

theorem PRel_some_ne_zero (c : ECurve) {x y : Int} {S : (specCurve c).Point}
    (h : PRel c ⟨some x, some y⟩ S) : S ≠ 0 := by
  cases h
  exact WeierstrassCurve.Affine.Point.some_ne_zero _

/-! ### Refinement of the point operations -/

theorem doubleCoords_rel (c : ECurve) [hpf : Fact (Nat.Prime c.p)] (x y v : Int)
    (hns : (specCurve c).Nonsingular (x : ZMod c.p) (y : ZMod c.p))
    (hyneg : (y : ZMod c.p) ≠ (specCurve c).negY (x : ZMod c.p) (y : ZMod c.p))
    (hvinv : (v : ZMod c.p) = (2 * (y : ZMod c.p))⁻¹) :
    PRel c (doubleCoords c x y v)
      (WeierstrassCurve.Affine.Point.some hns + WeierstrassCurve.Affine.Point.some hns) := by
  have hp := hpf.out
  have hpPos : (0 : Int) < (c.p : Int) := by exact_mod_cast hp.pos
  have hpne : (c.p : Int) ≠ 0 := by omega
  have h2y : (2 : ZMod c.p) * (y : ZMod c.p) ≠ 0 := by
    intro hcon
    apply hyneg
    rw [specCurve_negY]
    linear_combination hcon
  rw [WeierstrassCurve.Affine.Point.add_self_of_Y_ne hyneg]
  have hslopec :
      (((3 * x * x + c.a) % (c.p : Int) * v % (c.p : Int) : Int) : ZMod c.p)
        = (specCurve c).slope (x : ZMod c.p) (x : ZMod c.p) (y : ZMod c.p) (y : ZMod c.p) := by
    rw [WeierstrassCurve.Affine.slope_of_Y_ne rfl hyneg, specCurve_negY]
    rw [int_cast_emod]
    push_cast [int_cast_emod]
    rw [hvinv]
    have hsub : ((y : ZMod c.p) - -(y : ZMod c.p)) = 2 * (y : ZMod c.p) := by ring
    show (3 * (x : ZMod c.p) * (x : ZMod c.p) + (c.a : ZMod c.p)) * (2 * (y : ZMod c.p))⁻¹ =
      (3 * (x : ZMod c.p) ^ 2 + 2 * (specCurve c).a₂ * (x : ZMod c.p) + (specCurve c).a₄
        - (specCurve c).a₁ * (y : ZMod c.p)) / ((y : ZMod c.p) - -(y : ZMod c.p))
    rw [hsub, eq_div_iff h2y, mul_assoc, inv_mul_cancel₀ h2y, mul_one]
    show 3 * (x : ZMod c.p) * (x : ZMod c.p) + (c.a : ZMod c.p) =
      3 * (x : ZMod c.p) ^ 2 + 2 * 0 * (x : ZMod c.p) + (c.a : ZMod c.p) - 0 * (y : ZMod c.p)
    ring
  have hslopec2 : ((3 : ZMod c.p) * (x : ZMod c.p) * (x : ZMod c.p) + (c.a : ZMod c.p))
      * (v : ZMod c.p) = (specCurve c).slope (x : ZMod c.p) (x : ZMod c.p) (y : ZMod c.p) (y : ZMod c.p) := by
    calc ((3 : ZMod c.p) * (x : ZMod c.p) * (x : ZMod c.p) + (c.a : ZMod c.p)) * (v : ZMod c.p)
        = (((3 * x * x + c.a) % (c.p : Int) * v % (c.p : Int) : Int) : ZMod c.p) := by
          rw [int_cast_emod]
          push_cast [int_cast_emod]
          ring
      _ = (specCurve c).slope (x : ZMod c.p) (x : ZMod c.p) (y : ZMod c.p) (y : ZMod c.p) :=
          hslopec
  set S := (specCurve c).slope (x : ZMod c.p) (x : ZMod c.p) (y : ZMod c.p) (y : ZMod c.p)
    with hSdef
  unfold doubleCoords
  apply PRel.of_cast c _ _ _ _ (WeierstrassCurve.Affine.nonsingular_add hns hns fun _ => hyneg)
  · rw [int_cast_emod]
    push_cast [int_cast_emod]
    rw [hslopec2]
    show S * S - 2 * (x : ZMod c.p) = S ^ 2 + 0 * S - 0 - (x : ZMod c.p) - (x : ZMod c.p)
    ring
  · rw [int_cast_emod]
    push_cast [int_cast_emod]
    rw [hslopec2]
    show S * ((x : ZMod c.p) - (S * S - 2 * (x : ZMod c.p))) - (y : ZMod c.p) =
      (specCurve c).addY (x : ZMod c.p) (x : ZMod c.p) (y : ZMod c.p) S
    show S * ((x : ZMod c.p) - (S * S - 2 * (x : ZMod c.p))) - (y : ZMod c.p) =
      -(S * ((specCurve c).addX (x : ZMod c.p) (x : ZMod c.p) S - (x : ZMod c.p))
        + (y : ZMod c.p)) - 0 * (specCurve c).addX (x : ZMod c.p) (x : ZMod c.p) S - 0
    show S * ((x : ZMod c.p) - (S * S - 2 * (x : ZMod c.p))) - (y : ZMod c.p) =
      -(S * ((S ^ 2 + 0 * S - 0 - (x : ZMod c.p) - (x : ZMod c.p)) - (x : ZMod c.p))
        + (y : ZMod c.p)) - 0 * (S ^ 2 + 0 * S - 0 - (x : ZMod c.p) - (x : ZMod c.p)) - 0
    ring
  · exact Int.emod_nonneg _ hpne
  · exact Int.emod_lt_of_pos _ hpPos
  · exact Int.emod_nonneg _ hpne
  · exact Int.emod_lt_of_pos _ hpPos

theorem chordCoords_rel (c : ECurve) [hpf : Fact (Nat.Prime c.p)] (x1 y1 x2 y2 v : Int)
    (h1 : (specCurve c).Nonsingular (x1 : ZMod c.p) (y1 : ZMod c.p))
    (h2 : (specCurve c).Nonsingular (x2 : ZMod c.p) (y2 : ZMod c.p))
    (hxne : (x1 : ZMod c.p) ≠ (x2 : ZMod c.p))
    (hvinv : (v : ZMod c.p) = ((x2 : ZMod c.p) - (x1 : ZMod c.p))⁻¹) :
    PRel c (chordCoords c x1 y1 x2 y2 v)
      (WeierstrassCurve.Affine.Point.some h1 + WeierstrassCurve.Affine.Point.some h2) := by
  have hp := hpf.out
  have hpPos : (0 : Int) < (c.p : Int) := by exact_mod_cast hp.pos
  have hpne : (c.p : Int) ≠ 0 := by omega
  rw [WeierstrassCurve.Affine.Point.add_of_X_ne hxne]
  have h21 : ((x1 : ZMod c.p) - (x2 : ZMod c.p)) ≠ 0 := sub_ne_zero.mpr hxne
  have h12 : ((x2 : ZMod c.p) - (x1 : ZMod c.p)) ≠ 0 := sub_ne_zero.mpr (Ne.symm hxne)
  have hslopec2 : ((y2 : ZMod c.p) - (y1 : ZMod c.p)) * (v : ZMod c.p)
      = (specCurve c).slope (x1 : ZMod c.p) (x2 : ZMod c.p) (y1 : ZMod c.p) (y2 : ZMod c.p) := by
    rw [WeierstrassCurve.Affine.slope_of_X_ne hxne, hvinv, eq_div_iff h21]
    calc ((y2 : ZMod c.p) - (y1 : ZMod c.p)) * ((x2 : ZMod c.p) - (x1 : ZMod c.p))⁻¹
          * ((x1 : ZMod c.p) - (x2 : ZMod c.p))
        = -(((y2 : ZMod c.p) - (y1 : ZMod c.p)) *
            (((x2 : ZMod c.p) - (x1 : ZMod c.p))⁻¹ * ((x2 : ZMod c.p) - (x1 : ZMod c.p)))) := by
          ring
      _ = -((y2 : ZMod c.p) - (y1 : ZMod c.p)) := by rw [inv_mul_cancel₀ h12, mul_one]
      _ = (y1 : ZMod c.p) - (y2 : ZMod c.p) := by ring
  set S := (specCurve c).slope (x1 : ZMod c.p) (x2 : ZMod c.p) (y1 : ZMod c.p) (y2 : ZMod c.p)
    with hSdef
  unfold chordCoords
  apply PRel.of_cast c _ _ _ _
    (WeierstrassCurve.Affine.nonsingular_add h1 h2 (fun h => absurd h hxne))
  · rw [int_cast_emod]
    push_cast [int_cast_emod]
    rw [hslopec2]
    show S * S - (x1 : ZMod c.p) - (x2 : ZMod c.p)
      = S ^ 2 + 0 * S - 0 - (x1 : ZMod c.p) - (x2 : ZMod c.p)
    ring
  · rw [int_cast_emod]
    push_cast [int_cast_emod]
    rw [hslopec2]
    show S * ((x1 : ZMod c.p) - (S * S - (x1 : ZMod c.p) - (x2 : ZMod c.p))) - (y1 : ZMod c.p) =
      (specCurve c).addY (x1 : ZMod c.p) (x2 : ZMod c.p) (y1 : ZMod c.p) S
    show S * ((x1 : ZMod c.p) - (S * S - (x1 : ZMod c.p) - (x2 : ZMod c.p))) - (y1 : ZMod c.p) =
      -(S * ((S ^ 2 + 0 * S - 0 - (x1 : ZMod c.p) - (x2 : ZMod c.p)) - (x1 : ZMod c.p))
        + (y1 : ZMod c.p)) - 0 * (S ^ 2 + 0 * S - 0 - (x1 : ZMod c.p) - (x2 : ZMod c.p)) - 0
    ring
  · exact Int.emod_nonneg _ hpne
  · exact Int.emod_lt_of_pos _ hpPos
  · exact Int.emod_nonneg _ hpne
  · exact Int.emod_lt_of_pos _ hpPos

theorem pDouble_refine (c : ECurve) [hpf : Fact (Nat.Prime c.p)] (hno2 : NoTwoTorsion c)
    {P : IPoint} {SP : (specCurve c).Point} (hP : PRel c P SP) :
    ∃ R, pDouble c P = some R ∧ PRel c R (SP + SP) := by
  cases hP with
  | inf =>
    exact ⟨infPt, rfl, by rw [add_zero]; exact PRel.inf⟩
  | aff x y hns hx0 hxp hy0 hyp =>
    have hp := hpf.out
    have heq : (specCurve c).Equation (x : ZMod c.p) (y : ZMod c.p) := hns.1
    have h2y : (2 : ZMod c.p) * (y : ZMod c.p) ≠ 0 :=
      hno2 _ _ ((specCurve_equation_iff c _ _).mp heq)
    have hyneg : (y : ZMod c.p) ≠ (specCurve c).negY (x : ZMod c.p) (y : ZMod c.p) := by
      rw [specCurve_negY]
      intro hcon
      exact h2y (by linear_combination hcon)
    have hdenc : (((2 * y) % (c.p : Int) : Int) : ZMod c.p) = 2 * (y : ZMod c.p) := by
      rw [int_cast_emod]; push_cast; ring
    obtain ⟨v, hv, hv0, hvp, hv1⟩ := modInverse_prime c.p hp ((2 * y) % (c.p : Int))
      (by rw [hdenc]; exact h2y)
    have hvinv : (v : ZMod c.p) = (2 * (y : ZMod c.p))⁻¹ := by
      rw [← hdenc]
      exact eq_inv_of_mul_eq_one_right hv1
    refine ⟨doubleCoords c x y v, ?_, doubleCoords_rel c x y v hns hyneg hvinv⟩
    show (modInverse ((2 * y) % (c.p : Int)) c.p).map (doubleCoords c x y)
      = some (doubleCoords c x y v)
    rw [hv]
    rfl

theorem pAdd_refine (c : ECurve) [hpf : Fact (Nat.Prime c.p)] (hno2 : NoTwoTorsion c)
    {P Q : IPoint} {SP SQ : (specCurve c).Point}
    (hP : PRel c P SP) (hQ : PRel c Q SQ) :
    ∃ R, pAdd c P Q = some R ∧ PRel c R (SP + SQ) := by
  cases hP with
  | inf =>
    refine ⟨Q, ?_, by rw [zero_add]; exact hQ⟩
    rfl
  | aff x1 y1 h1 hx10 hx1p hy10 hy1p =>
    cases hQ with
    | inf =>
      refine ⟨⟨some x1, some y1⟩, ?_,
        by rw [add_zero]; exact PRel.aff x1 y1 h1 hx10 hx1p hy10 hy1p⟩
      rfl
    | aff x2 y2 h2 hx20 hx2p hy20 hy2p =>
      have hp := hpf.out
      by_cases hxx : x1 = x2
      · by_cases hyy : y1 = y2
        · subst hxx
          subst hyy
          obtain ⟨R, hR, hrel⟩ := pDouble_refine c hno2
            (PRel.aff x1 y1 h1 hx10 hx1p hy10 hy1p)
          refine ⟨R, ?_, ?_⟩
          · rw [← hR]
            show pAdd c ⟨some x1, some y1⟩ ⟨some x1, some y1⟩ = pDouble c ⟨some x1, some y1⟩
            simp [pAdd, IPoint.isInf]
          · exact hrel
        · subst hxx
          have hy12 : (y1 : ZMod c.p) ≠ (y2 : ZMod c.p) := fun hcast =>
            hyy (int_cast_inj_reduced _ _ _ hy10 hy1p hy20 hy2p hcast)
          have hyneg : (y1 : ZMod c.p) = (specCurve c).negY (x1 : ZMod c.p) (y2 : ZMod c.p) := by
            rcases WeierstrassCurve.Affine.Y_eq_of_X_eq h1.1 h2.1 rfl with h | h
            · exact absurd h hy12
            · exact h
          refine ⟨infPt, ?_, ?_⟩
          · show pAdd c ⟨some x1, some y1⟩ ⟨some x1, some y2⟩ = some infPt
            simp [pAdd, IPoint.isInf, hyy]
          · rw [WeierstrassCurve.Affine.Point.add_of_Y_eq rfl hyneg]
            exact PRel.inf
      · have hxne : (x1 : ZMod c.p) ≠ (x2 : ZMod c.p) := fun hcast =>
          hxx (int_cast_inj_reduced _ _ _ hx10 hx1p hx20 hx2p hcast)
        have hsub : ((x2 - x1 : Int) : ZMod c.p) ≠ 0 := by
          push_cast
          intro hcon
          exact hxne (sub_eq_zero.mp hcon).symm
        obtain ⟨v, hv, hv0, hvp, hv1⟩ := modInverse_prime c.p hp (x2 - x1) hsub
        have hvinv : (v : ZMod c.p) = ((x2 : ZMod c.p) - (x1 : ZMod c.p))⁻¹ := by
          have := eq_inv_of_mul_eq_one_right hv1
          rwa [show ((x2 - x1 : Int) : ZMod c.p) = (x2 : ZMod c.p) - (x1 : ZMod c.p)
            by push_cast; ring] at this
        refine ⟨chordCoords c x1 y1 x2 y2 v, ?_,
          chordCoords_rel c x1 y1 x2 y2 v h1 h2 hxne hvinv⟩
        have hstep : pAdd c ⟨some x1, some y1⟩ ⟨some x2, some y2⟩
            = (modInverse (x2 - x1) c.p).map (chordCoords c x1 y1 x2 y2) := by
          simp [pAdd, IPoint.isInf, hxx]
        rw [hstep, hv]
        rfl

theorem pMulLoop_refine (c : ECurve) [hpf : Fact (Nat.Prime c.p)] (hno2 : NoTwoTorsion c) :
    ∀ (fuel k : Nat) (res add : IPoint) (Sres Sadd : (specCurve c).Point),
      k ≤ fuel → PRel c res Sres → PRel c add Sadd →
      ∃ R, pMulLoop c fuel res add k = some R ∧ PRel c R (Sres + k • Sadd) := by
  intro fuel
  induction fuel with
  | zero =>
    intro k res add Sres Sadd hk hres hadd
    interval_cases k
    exact ⟨res, rfl, by rw [zero_nsmul, add_zero]; exact hres⟩
  | succ fuel ih =>
    intro k res add Sres Sadd hk hres hadd
    by_cases hk0 : k = 0
    · subst hk0
      exact ⟨res, rfl, by rw [zero_nsmul, add_zero]; exact hres⟩
    · obtain ⟨k2, rfl⟩ : ∃ k2, k = k2 + 1 := ⟨k - 1, by omega⟩
      have hk2 : (k2 + 1) / 2 ≤ fuel := by
        have := Nat.div_lt_self (by omega : 0 < k2 + 1) (by omega : 1 < 2)
        omega
      obtain ⟨res2, hres2, hrel2⟩ :
          ∃ r2, (if (k2 + 1) % 2 = 1 then pAdd c res add else pure res) = some r2 ∧
            PRel c r2 (Sres + ((k2 + 1) % 2) • Sadd) := by
        by_cases hodd : (k2 + 1) % 2 = 1
        · rw [if_pos hodd, hodd]
          obtain ⟨r2, ha, hb⟩ := pAdd_refine c hno2 hres hadd
          exact ⟨r2, ha, by rwa [one_nsmul]⟩
        · rw [if_neg hodd]
          rw [show (k2 + 1) % 2 = 0 by omega]
          exact ⟨res, rfl, by rw [zero_nsmul, add_zero]; exact hres⟩
      obtain ⟨add2, hadd2, hreladd⟩ := pDouble_refine c hno2 hadd
      obtain ⟨R, hR, hrelR⟩ := ih ((k2 + 1) / 2) res2 add2 _ _ hk2 hrel2 hreladd
      refine ⟨R, ?_, ?_⟩
      · show (match (if (k2 + 1) % 2 = 1 then pAdd c res add else pure res),
            pDouble c add with
          | some result2, some addend2 => pMulLoop c fuel result2 addend2 ((k2 + 1) / 2)
          | _, _ => none) = some R
        rw [hres2, hadd2]
        exact hR
      · have harith : (Sres + ((k2 + 1) % 2) • Sadd) + ((k2 + 1) / 2) • (Sadd + Sadd)
            = Sres + (k2 + 1) • Sadd := by
          calc (Sres + ((k2 + 1) % 2) • Sadd) + ((k2 + 1) / 2) • (Sadd + Sadd)
              = Sres + (((k2 + 1) % 2) • Sadd + ((k2 + 1) / 2) • (2 • Sadd)) := by
                rw [two_nsmul, add_assoc]
            _ = Sres + (((k2 + 1) % 2) • Sadd + (2 * ((k2 + 1) / 2)) • Sadd) := by
                rw [← mul_nsmul]
            _ = Sres + ((k2 + 1) % 2 + 2 * ((k2 + 1) / 2)) • Sadd := by
                rw [← add_nsmul]
            _ = Sres + (k2 + 1) • Sadd := by
                rw [show (k2 + 1) % 2 + 2 * ((k2 + 1) / 2) = k2 + 1 by omega]
        rw [← harith]
        exact hrelR

theorem pScalarMul_refine (c : ECurve) [hpf : Fact (Nat.Prime c.p)] (hno2 : NoTwoTorsion c)
    {P : IPoint} {SP : (specCurve c).Point} (hP : PRel c P SP) (k : Nat) :
    ∃ R, pScalarMul c P k = some R ∧ PRel c R (k • SP) := by
  cases hP with
  | inf =>
    refine ⟨infPt, rfl, ?_⟩
    have : k • (0 : (specCurve c).Point) = 0 := nsmul_zero k
    rw [this]
    exact PRel.inf
  | aff x y hns hx0 hxp hy0 hyp =>
    by_cases hk0 : k = 0
    · subst hk0
      refine ⟨infPt, ?_, ?_⟩
      · show pScalarMul c ⟨some x, some y⟩ 0 = some infPt
        simp [pScalarMul, IPoint.isInf]
      · rw [zero_nsmul]
        exact PRel.inf
    · obtain ⟨R, hR, hrel⟩ := pMulLoop_refine c hno2 k k infPt ⟨some x, some y⟩ 0
        (WeierstrassCurve.Affine.Point.some hns) le_rfl PRel.inf
        (PRel.aff x y hns hx0 hxp hy0 hyp)
      refine ⟨R, ?_, ?_⟩
      · rw [← hR]
        show pScalarMul c ⟨some x, some y⟩ k = pMulLoop c k infPt ⟨some x, some y⟩ k
        simp [pScalarMul, IPoint.isInf, hk0]
      · rwa [zero_add] at hrel

/-! ### Generator, order, and keystream support -/

theorem gen_rel (c : ECurve) [hpf : Fact (Nat.Prime c.p)] (hno2 : NoTwoTorsion c)
    (hG1 : 0 ≤ c.gx) (hG2 : c.gx < (c.p : Int)) (hG3 : 0 ≤ c.gy) (hG4 : c.gy < (c.p : Int))
    (hGeq : (c.gy ^ 2 - (c.gx ^ 3 + c.a * c.gx + c.b)) % (c.p : Int) = 0) :
    ∃ hns : (specCurve c).Nonsingular (c.gx : ZMod c.p) (c.gy : ZMod c.p),
      PRel c c.G (WeierstrassCurve.Affine.Point.some hns) := by
  have hcast : ((c.gy ^ 2 - (c.gx ^ 3 + c.a * c.gx + c.b) : Int) : ZMod c.p) = 0 := by
    rw [← int_cast_emod, hGeq]
    simp
  have heq : (specCurve c).Equation (c.gx : ZMod c.p) (c.gy : ZMod c.p) := by
    rw [specCurve_equation_iff]
    push_cast at hcast
    linear_combination hcast
  exact ⟨specCurve_nonsingular c hno2 _ _ heq,
    PRel.aff c.gx c.gy (specCurve_nonsingular c hno2 _ _ heq) hG1 hG2 hG3 hG4⟩

theorem PRel_shape (c : ECurve) {P : IPoint} {S : (specCurve c).Point}
    (h : PRel c P S) (hne : S ≠ 0) :
    ∃ cx cy : Int, P = ⟨some cx, some cy⟩ ∧ 0 ≤ cx ∧ cx < (c.p : Int) ∧
      0 ≤ cy ∧ cy < (c.p : Int) := by
  cases h with
  | inf => exact absurd rfl hne
  | aff x y hns hx0 hxp hy0 hyp => exact ⟨x, y, rfl, hx0, hxp, hy0, hyp⟩

theorem addOrderOf_gen (c : ECurve) [hpf : Fact (Nat.Prime c.p)] (hno2 : NoTwoTorsion c)
    (hn : Nat.Prime c.n) {SG : (specCurve c).Point}
    (hSG : PRel c c.G SG) (hGne : SG ≠ 0)
    (hord : pScalarMul c c.G c.n = some infPt) :
    c.n • SG = 0 ∧ addOrderOf SG = c.n := by
  have hzero : c.n • SG = 0 := by
    obtain ⟨R, hR, hrel⟩ := pScalarMul_refine c hno2 hSG c.n
    rw [hord] at hR
    obtain rfl : infPt = R := Option.some.inj hR
    exact PRel_inf_right c hrel
  haveI := Fact.mk hn
  exact ⟨hzero, addOrderOf_eq_prime hzero hGne⟩

theorem nsmul_ne_zero_of_range {M : Type} [SubtractionMonoid M] {g : M} {n : Nat}
    (hord : addOrderOf g = n) (hn : 0 < n) {k : Nat} (hk1 : 1 ≤ k) (hk2 : k < n) :
    k • g ≠ 0 := by
  intro hcon
  have hdvd : addOrderOf g ∣ k := addOrderOf_dvd_of_nsmul_eq_zero hcon
  rw [hord] at hdvd
  have := Nat.le_of_dvd (by omega) hdvd
  omega

theorem nsmul_mod_order {M : Type} [AddCommMonoid M] (g : M) (n : Nat)
    (hz : n • g = 0) (a : Nat) : a • g = (a % n) • g := by
  conv_lhs => rw [show a = n * (a / n) + a % n from (Nat.div_add_mod a n).symm]
  rw [add_nsmul, mul_nsmul, hz, nsmul_zero, zero_add]

theorem hexPairsToBytes_bytesToHex (bs : List Nat) (h : ∀ b ∈ bs, b < 256) :
    hexPairsToBytes (bytesToHex bs) = some bs := by
  induction bs with
  | nil => rfl
  | cons b t ih =>
    have hb : b < 256 := h b (by simp)
    have ht : ∀ x ∈ t, x < 256 := fun x hx => h x (by simp [hx])
    have hstep : bytesToHex (b :: t) =
        hexDigit (b / 16) :: hexDigit (b % 16) :: bytesToHex t := rfl
    rw [hstep]
    show (do
      let v1 ← hexVal (hexDigit (b / 16))
      let v2 ← hexVal (hexDigit (b % 16))
      let r ← hexPairsToBytes (bytesToHex t)
      pure ((v1 * 16 + v2) :: r)) = some (b :: t)
    rw [hexVal_hexDigit _ (by omega), hexVal_hexDigit _ (by omega), ih ht]
    show some ((b / 16 * 16 + b % 16) :: t) = some (b :: t)
    rw [show b / 16 * 16 + b % 16 = b by omega]

theorem xorZip_lt (xs ks : List Nat) (hx : ∀ b ∈ xs, b < 256) (hk : ∀ b ∈ ks, b < 256) :
    ∀ b ∈ xorZip xs ks, b < 256 := by
  induction xs generalizing ks with
  | nil => simp [xorZip]
  | cons x t ih =>
    cases ks with
    | nil => simp [xorZip]
    | cons k u =>
      intro b hb
      rcases List.mem_cons.mp hb with rfl | hb
      · have h1 : x < 2 ^ 8 := by have := hx x (by simp); omega
        have h2 : k < 2 ^ 8 := by have := hk k (by simp); omega
        exact Nat.xor_lt_two_pow h1 h2
      · exact ih u (fun y hy => hx y (List.mem_cons_of_mem _ hy))
          (fun y hy => hk y (List.mem_cons_of_mem _ hy)) b hb

theorem xorZip_length (xs ks : List Nat) :
    (xorZip xs ks).length = min xs.length ks.length := by
  simp [xorZip]

theorem xorZip_cancel (xs ks : List Nat) (h : xs.length ≤ ks.length) :
    xorZip (xorZip xs ks) ks = xs := by
  induction xs generalizing ks with
  | nil => simp [xorZip]
  | cons x t ih =>
    cases ks with
    | nil => simp at h
    | cons k u =>
      show (x ^^^ k ^^^ k) :: xorZip (xorZip t u) u = x :: t
      rw [Nat.xor_cancel_right, ih u (by simpa using h)]

theorem listRepeat_length (l : List α) (m : Nat) :
    (listRepeat l m).length = m * l.length := by
  simp [listRepeat, List.length_flatten, List.map_replicate, List.sum_replicate,
    smul_eq_mul]

theorem listRepeat_lt (l : List Nat) (m : Nat) (h : ∀ b ∈ l, b < 256) :
    ∀ b ∈ listRepeat l m, b < 256 := by
  intro b hb
  obtain ⟨l2, hl2, hbl⟩ := List.mem_flatten.mp hb
  obtain rfl := List.eq_of_mem_replicate hl2
  exact h b hbl

theorem eccKeystream_length (S : IPoint) : (eccKeystream S).length = 32 :=
  shaHash_length _

theorem eccKeystream_lt (S : IPoint) : ∀ b ∈ eccKeystream S, b < 256 :=
  shaHash_lt _

theorem len_lt_repeat (lenm lenk : Nat) (hk : 0 < lenk) :
    lenm ≤ (lenm / lenk + 1) * lenk := by
  have h1 := Nat.div_add_mod lenm lenk
  have h2 : lenm % lenk < lenk := Nat.mod_lt _ hk
  have h3 : (lenm / lenk + 1) * lenk = lenk * (lenm / lenk) + lenk := by ring
  omega

theorem intToDec_nonneg (i : Int) (h : 0 ≤ i) : intToDec i = natToDec i.toNat := by
  unfold intToDec
  rw [if_neg (by omega)]
  congr 1
  omega

theorem intToDec_no_comma (i : Int) : ',' ∉ intToDec i := by
  unfold intToDec
  split
  · intro hmem
    rcases List.mem_cons.mp hmem with hmem | hmem
    · exact absurd hmem (by decide)
    · exact natToDec_no_comma _ hmem
  · exact natToDec_no_comma _

theorem bytesToHex_no_comma (bs : List Nat) : ',' ∉ bytesToHex bs := fun h =>
  absurd (bytesToHex_mem bs ',' h) (by decide)

/-- C4: over any curve with prime field order, prime group order, no
    2-torsion, a generator lying on the curve in reduced coordinates whose
    order divides `n`, a key pair `Q = d·G` with `1 ≤ d < n`, and an
    ephemeral scalar `1 ≤ k < n`, `ECC.encrypt` succeeds and `ECC.decrypt`
    with the matching private key returns exactly the plaintext bytes. -/
theorem ecc_roundtrip (c : ECurve) [hpf : Fact (Nat.Prime c.p)]
    (hno2 : NoTwoTorsion c) (hn : Nat.Prime c.n)
    (hG1 : 0 ≤ c.gx) (hG2 : c.gx < (c.p : Int)) (hG3 : 0 ≤ c.gy) (hG4 : c.gy < (c.p : Int))
    (hGeq : (c.gy ^ 2 - (c.gx ^ 3 + c.a * c.gx + c.b)) % (c.p : Int) = 0)
    (hord : pScalarMul c c.G c.n = some infPt)
    (d k : Nat) (hd1 : 1 ≤ d) (hd2 : d < c.n) (hk1 : 1 ≤ k) (hk2 : k < c.n)
    (Q : IPoint) (hQ : pScalarMul c c.G d = some Q)
    (msg : List Nat) (hbytes : ∀ bt ∈ msg, bt < 256) :
    ∃ ct, eccEncrypt c msg Q k = some ct ∧ eccDecrypt c ct d = some msg := by
  obtain ⟨hGns, hSG⟩ := gen_rel c hno2 hG1 hG2 hG3 hG4 hGeq
  set SG := WeierstrassCurve.Affine.Point.some hGns with hSGdef
  have hGne : SG ≠ 0 := WeierstrassCurve.Affine.Point.some_ne_zero _
  obtain ⟨hnz, hordSG⟩ := addOrderOf_gen c hno2 hn hSG hGne hord
  obtain ⟨Q2, hQ2, hrelQ⟩ := pScalarMul_refine c hno2 hSG d
  rw [hQ] at hQ2
  obtain rfl : Q = Q2 := Option.some.inj hQ2
  obtain ⟨C1pt, hC1, hrelC1⟩ := pScalarMul_refine c hno2 hSG k
  have hkG_ne : k • SG ≠ 0 := nsmul_ne_zero_of_range hordSG hn.pos hk1 hk2
  obtain ⟨cx, cy, hC1shape, hcx0, hcxp, hcy0, hcyp⟩ := PRel_shape c hrelC1 hkG_ne
  subst hC1shape
  obtain ⟨Spt, hS, hrelS⟩ := pScalarMul_refine c hno2 hrelQ k
  obtain ⟨S2, hS2, hrelS2⟩ := pScalarMul_refine c hno2 hrelC1 d
  have hcomm : d • (k • SG) = k • (d • SG) := by
    rw [← mul_nsmul, ← mul_nsmul, Nat.mul_comm]
  have hrelS2b : PRel c S2 (k • (d • SG)) := by rw [← hcomm]; exact hrelS2
  have hS2eq : S2 = Spt := PRel_left_unique c hpf.out.pos hrelS2b hrelS
  have hkslen : (eccKeystream Spt).length = 32 := eccKeystream_length Spt
  set ks := listRepeat (eccKeystream Spt) (msg.length / (eccKeystream Spt).length + 1)
    with hksdef
  have hkslen2 : ks.length = (msg.length / (eccKeystream Spt).length + 1) * 32 := by
    rw [hksdef, listRepeat_length, hkslen]
  have hmle : msg.length ≤ ks.length := by
    rw [hkslen2, hkslen]
    exact len_lt_repeat msg.length 32 (by omega)
  set enc := xorZip msg ks with hencdef
  have henclen : enc.length = msg.length := by
    rw [hencdef, xorZip_length]
    omega
  have hencbytes : ∀ bt ∈ enc, bt < 256 := by
    rw [hencdef]
    exact xorZip_lt msg ks hbytes
      (by rw [hksdef]; exact listRepeat_lt _ _ (eccKeystream_lt Spt))
  refine ⟨intToDec cx ++ ',' :: intToDec cy ++ ',' :: bytesToHex enc, ?_, ?_⟩
  · show (do
      let plaintextHash := shaHash msg
      let m := bytesToNat (plaintextHash.take 16)
      let C1 ← pScalarMul c c.G k
      let shared ← pScalarMul c Q k
      let keyBytes := eccKeystream shared
      let encrypted := xorZip msg (listRepeat keyBytes (msg.length / keyBytes.length + 1))
      pure (coordStr C1.x ++ ',' :: coordStr C1.y ++ ',' :: bytesToHex encrypted)) =
      some (intToDec cx ++ ',' :: intToDec cy ++ ',' :: bytesToHex enc)
    rw [hC1, hS, hencdef, hksdef]
    rfl
  · have hsplit : splitComma (intToDec cx ++ ',' :: intToDec cy ++ ',' :: bytesToHex enc) =
        [intToDec cx, intToDec cy, bytesToHex enc] := by
      rw [List.append_assoc, List.cons_append,
          splitComma_append_comma _ _ (intToDec_no_comma cx),
          splitComma_append_comma _ _ (intToDec_no_comma cy),
          splitComma_no_comma _ (bytesToHex_no_comma _)]
    unfold eccDecrypt
    rw [hsplit]
    show (do
      let c1x ← decParseNat (intToDec cx)
      let c1y ← decParseNat (intToDec cy)
      let shared ← pScalarMul c ⟨some (c1x : Int), some (c1y : Int)⟩ d
      let keyBytes := eccKeystream shared
      let encrypted ← hexPairsToBytes (bytesToHex enc)
      pure (xorZip encrypted (listRepeat keyBytes (encrypted.length / keyBytes.length + 1)))) =
      some msg
    rw [intToDec_nonneg cx hcx0, intToDec_nonneg cy hcy0, natToDec_parse, natToDec_parse]
    show (do
      let shared ← pScalarMul c ⟨some ((cx.toNat : Int)), some ((cy.toNat : Int))⟩ d
      let keyBytes := eccKeystream shared
      let encrypted ← hexPairsToBytes (bytesToHex enc)
      pure (xorZip encrypted (listRepeat keyBytes (encrypted.length / keyBytes.length + 1)))) =
      some msg
    rw [show ((cx.toNat : Int)) = cx from Int.toNat_of_nonneg hcx0,
        show ((cy.toNat : Int)) = cy from Int.toNat_of_nonneg hcy0, hS2]
    show (do
      let encrypted ← hexPairsToBytes (bytesToHex enc)
      pure (xorZip encrypted
        (listRepeat (eccKeystream S2) (encrypted.length / (eccKeystream S2).length + 1)))) =
      some msg
    rw [hexPairsToBytes_bytesToHex enc hencbytes]
    show some (xorZip enc
        (listRepeat (eccKeystream S2) (enc.length / (eccKeystream S2).length + 1))) =
      some msg
    rw [hS2eq, henclen, ← hksdef, hencdef, xorZip_cancel msg ks hmle]

/-- Witness for the ECC round trip on the curve `y² = x³ + 3` over `F₇` with
    generator `(1, 2)` of prime order 13: key pair `d = 4`, `Q = 4·G = (4, 5)`,
    ephemeral scalar `k = 6`, plaintext bytes `[72, 105, 0, 255]`. -/
theorem ecc_roundtrip_witness :
    ∃ ct, eccEncrypt ⟨0, 3, 7, 1, 2, 13⟩ [72, 105, 0, 255] ⟨some 4, some 5⟩ 6 = some ct ∧
      eccDecrypt ⟨0, 3, 7, 1, 2, 13⟩ ct 4 = some [72, 105, 0, 255] := by
  have hno2 : NoTwoTorsion ⟨0, 3, 7, 1, 2, 13⟩ := by
    show ∀ x y : ZMod 7,
      y ^ 2 = x ^ 3 + ((0 : Int) : ZMod 7) * x + ((3 : Int) : ZMod 7) → 2 * y ≠ 0
    decide
  haveI : Fact (Nat.Prime (ECurve.p ⟨0, 3, 7, 1, 2, 13⟩)) := ⟨by norm_num⟩
  exact ecc_roundtrip ⟨0, 3, 7, 1, 2, 13⟩ hno2
    (by norm_num) (by decide) (by decide) (by decide) (by decide) (by decide)
    (by decide) 4 6 (by decide) (by decide) (by decide) (by decide)
    ⟨some 4, some 5⟩ (by decide) [72, 105, 0, 255] (by decide)

/-- C9: `ECC.encrypt` is extensionally equal to the same function with the
    plaintext-hash integer `m` (from the first 16 bytes of SHA-256 of the
    plaintext) removed: for every curve, plaintext, public key and ephemeral
    scalar the ciphertext depends only on the plaintext bytes, `C1 = k·G`,
    and the keystream of the shared secret. -/
theorem ecc_encrypt_hash_unused :
    ∀ (c : ECurve) (msg : List Nat) (pub : IPoint) (k : Nat),
      eccEncrypt c msg pub k = eccEncryptNoHash c msg pub k :=
  fun _ _ _ _ => rfl

theorem eccSignStep_inv (c : ECurve) (msg : List Nat) (d k : Nat) {px py kv r s : Int}
    (hC1 : pScalarMul c c.G k = some ⟨some px, some py⟩)
    (hkv : modInverse (k : Int) c.n = some kv)
    (hsig : eccSignStep c msg d k = some (some (r, s))) :
    px % (c.n : Int) = r ∧
    kv * ((bytesToNat (shaHash msg) : Int) + px % (c.n : Int) * (d : Int)) % (c.n : Int) = s ∧
    r ≠ 0 ∧ s ≠ 0 := by
  unfold eccSignStep at hsig
  rw [hC1] at hsig
  have hsig2 : (if px % (c.n : Int) = 0 then (pure none : Option (Option (Int × Int))) else do
      let kinv ← modInverse (k : Int) c.n
      let s0 := kinv * ((bytesToNat (shaHash msg) : Int) +
        px % (c.n : Int) * (d : Int)) % (c.n : Int)
      if s0 = 0 then pure none
      else pure (some (px % (c.n : Int), s0))) = some (some (r, s)) := hsig
  by_cases hr0 : px % (c.n : Int) = 0
  · rw [if_pos hr0] at hsig2
    exact absurd (Option.some.inj hsig2) (by simp)
  · rw [if_neg hr0, hkv] at hsig2
    have hsig3 : (if kv * ((bytesToNat (shaHash msg) : Int) +
          px % (c.n : Int) * (d : Int)) % (c.n : Int) = 0
        then (pure none : Option (Option (Int × Int)))
        else pure (some (px % (c.n : Int), kv * ((bytesToNat (shaHash msg) : Int) +
          px % (c.n : Int) * (d : Int)) % (c.n : Int)))) = some (some (r, s)) := hsig2
    by_cases hs0 : kv * ((bytesToNat (shaHash msg) : Int) +
        px % (c.n : Int) * (d : Int)) % (c.n : Int) = 0
    · rw [if_pos hs0] at hsig3
      exact absurd (Option.some.inj hsig3) (by simp)
    · rw [if_neg hs0] at hsig3
      have hpair := Option.some.inj (Option.some.inj hsig3)
      have hr : px % (c.n : Int) = r := congrArg Prod.fst hpair
      have hs : kv * ((bytesToNat (shaHash msg) : Int) +
          px % (c.n : Int) * (d : Int)) % (c.n : Int) = s := congrArg Prod.snd hpair
      exact ⟨hr, hs, hr ▸ hr0, hs ▸ hs0⟩

/-- C5: whenever one iteration of the `ECC.sign` loop returns a signature
    `(r, s)` (so `r ≠ 0` and `s ≠ 0`), `ECC.verify` accepts it against the
    matching public key `Q = d·G`; moreover verify returns `False` for any
    signature with `r` or `s` outside `[1, n-1]`, and returns `False`
    whenever the recombined point `u1·G + u2·Q` is the point at infinity. -/
theorem ecdsa_sign_verify (c : ECurve) [hpf : Fact (Nat.Prime c.p)]
    (hno2 : NoTwoTorsion c) (hn : Nat.Prime c.n)
    (hG1 : 0 ≤ c.gx) (hG2 : c.gx < (c.p : Int)) (hG3 : 0 ≤ c.gy) (hG4 : c.gy < (c.p : Int))
    (hGeq : (c.gy ^ 2 - (c.gx ^ 3 + c.a * c.gx + c.b)) % (c.p : Int) = 0)
    (hord : pScalarMul c c.G c.n = some infPt)
    (d k : Nat) (hd1 : 1 ≤ d) (hd2 : d < c.n) (hk1 : 1 ≤ k) (hk2 : k < c.n)
    (Q : IPoint) (hQ : pScalarMul c c.G d = some Q)
    (msg : List Nat) (r s : Int)
    (hsig : eccSignStep c msg d k = some (some (r, s))) :
    eccVerify c msg (r, s) Q = some true ∧
    (∀ sig : Int × Int,
      ¬ (1 ≤ sig.1 ∧ sig.1 < (c.n : Int) ∧ 1 ≤ sig.2 ∧ sig.2 < (c.n : Int)) →
      eccVerify c msg sig Q = some false) ∧
    (∀ sig : Int × Int, ∀ w2 P1b P2b Pb,
      (1 ≤ sig.1 ∧ sig.1 < (c.n : Int) ∧ 1 ≤ sig.2 ∧ sig.2 < (c.n : Int)) →
      modInverse sig.2 c.n = some w2 →
      pScalarMul c c.G ((bytesToNat (shaHash msg) : Int) * w2 % (c.n : Int)).toNat = some P1b →
      pScalarMul c Q (sig.1 * w2 % (c.n : Int)).toNat = some P2b →
      pAdd c P1b P2b = some Pb → Pb.isInf = true →
      eccVerify c msg sig Q = some false) := by
  have hn0 : (0 : Int) < (c.n : Int) := by exact_mod_cast hn.pos
  obtain ⟨hGns, hSG⟩ := gen_rel c hno2 hG1 hG2 hG3 hG4 hGeq
  set SG := WeierstrassCurve.Affine.Point.some hGns with hSGdef
  have hGne : SG ≠ 0 := WeierstrassCurve.Affine.Point.some_ne_zero _
  obtain ⟨hnz, hordSG⟩ := addOrderOf_gen c hno2 hn hSG hGne hord
  obtain ⟨Q2, hQ2, hrelQ⟩ := pScalarMul_refine c hno2 hSG d
  rw [hQ] at hQ2
  obtain rfl : Q = Q2 := Option.some.inj hQ2
  obtain ⟨C1pt, hC1, hrelC1⟩ := pScalarMul_refine c hno2 hSG k
  have hkG_ne : k • SG ≠ 0 := nsmul_ne_zero_of_range hordSG hn.pos hk1 hk2
  obtain ⟨px, py, hC1shape, hpx0, hpxp, hpy0, hpyp⟩ := PRel_shape c hrelC1 hkG_ne
  subst hC1shape
  have hkZ : (((k : Int)) : ZMod c.n) ≠ 0 := by
    rw [int_cast_ne_zero_iff_not_dvd]
    intro hdvd
    have := Int.le_of_dvd (by exact_mod_cast hk1) hdvd
    have : (c.n : Int) ≤ (k : Int) := this
    have hlt : (k : Int) < (c.n : Int) := by exact_mod_cast hk2
    omega
  obtain ⟨kv, hkv, hkv0, hkvn, hkvmul⟩ := modInverse_prime c.n hn (k : Int) hkZ
  obtain ⟨hrdef, hsdef, hrne, hsne⟩ := eccSignStep_inv c msg d k hC1 hkv hsig
  have hr1 : 1 ≤ r := by
    have h1 := Int.emod_nonneg px (by omega : (c.n : Int) ≠ 0)
    omega
  have hr2 : r < (c.n : Int) := by
    have h1 := Int.emod_lt_of_pos px hn0
    omega
  have hs1 : 1 ≤ s := by
    have h1 := Int.emod_nonneg (kv * ((bytesToNat (shaHash msg) : Int) +
      px % (c.n : Int) * (d : Int))) (by omega : (c.n : Int) ≠ 0)
    omega
  have hs2 : s < (c.n : Int) := by
    have h1 := Int.emod_lt_of_pos (kv * ((bytesToNat (shaHash msg) : Int) +
      px % (c.n : Int) * (d : Int))) hn0
    omega
  have hsZ : ((s : Int) : ZMod c.n) ≠ 0 := by
    rw [int_cast_ne_zero_iff_not_dvd]
    intro hdvd
    have := Int.le_of_dvd (by omega) hdvd
    omega
  obtain ⟨w, hw, hw0, hwn, hwmul⟩ := modInverse_prime c.n hn s hsZ
  obtain ⟨P1, hP1, hrelP1⟩ := pScalarMul_refine c hno2 hSG
    ((bytesToNat (shaHash msg) : Int) * w % (c.n : Int)).toNat
  obtain ⟨P2, hP2, hrelP2⟩ := pScalarMul_refine c hno2 hrelQ
    (r * w % (c.n : Int)).toNat
  obtain ⟨Pt, hPt, hrelPt⟩ := pAdd_refine c hno2 hrelP1 hrelP2
  have hu10 : 0 ≤ (bytesToNat (shaHash msg) : Int) * w % (c.n : Int) :=
    Int.emod_nonneg _ (by omega)
  have hu20 : 0 ≤ r * w % (c.n : Int) := Int.emod_nonneg _ (by omega)
  have hcong : ((((bytesToNat (shaHash msg) : Int) * w % (c.n : Int)).toNat +
      (r * w % (c.n : Int)).toNat * d : Nat) : ZMod c.n) = ((k : Nat) : ZMod c.n) := by
    push_cast
    have hA : (((((bytesToNat (shaHash msg) : Int) * w % (c.n : Int)).toNat : Nat)) : ZMod c.n) =
        (((bytesToNat (shaHash msg) : Int) * w % (c.n : Int) : Int) : ZMod c.n) := by
      rw [show ((((bytesToNat (shaHash msg) : Int) * w % (c.n : Int)).toNat : Nat) : ZMod c.n) =
          (((((bytesToNat (shaHash msg) : Int) * w % (c.n : Int)).toNat : Nat) : Int) : ZMod c.n)
        from (Int.cast_natCast _).symm]
      rw [Int.toNat_of_nonneg hu10]
    have hB : ((((r * w % (c.n : Int)).toNat : Nat)) : ZMod c.n) =
        ((r * w % (c.n : Int) : Int) : ZMod c.n) := by
      rw [show ((((r * w % (c.n : Int)).toNat : Nat)) : ZMod c.n) =
          (((((r * w % (c.n : Int)).toNat : Nat)) : Int) : ZMod c.n)
        from (Int.cast_natCast _).symm]
      rw [Int.toNat_of_nonneg hu20]
    rw [hA, hB, int_cast_emod, int_cast_emod]
    push_cast
    have hSe : ((s : Int) : ZMod c.n) =
        ((kv : Int) : ZMod c.n) * (((bytesToNat (shaHash msg) : Int) : ZMod c.n) +
          ((r : Int) : ZMod c.n) * ((d : Nat) : ZMod c.n)) := by
      rw [← hsdef, int_cast_emod, hrdef]
      push_cast
      ring
    have hZRD : ((bytesToNat (shaHash msg) : Int) : ZMod c.n) +
        ((r : Int) : ZMod c.n) * ((d : Nat) : ZMod c.n) =
        (((k : Int)) : ZMod c.n) * ((s : Int) : ZMod c.n) := by
      calc ((bytesToNat (shaHash msg) : Int) : ZMod c.n) +
          ((r : Int) : ZMod c.n) * ((d : Nat) : ZMod c.n)
          = ((((k : Int)) : ZMod c.n) * ((kv : Int) : ZMod c.n)) *
            (((bytesToNat (shaHash msg) : Int) : ZMod c.n) +
              ((r : Int) : ZMod c.n) * ((d : Nat) : ZMod c.n)) := by rw [hkvmul, one_mul]
        _ = (((k : Int)) : ZMod c.n) * ((s : Int) : ZMod c.n) := by rw [hSe]; ring
    push_cast at hZRD hwmul ⊢
    linear_combination ((w : Int) : ZMod c.n) * hZRD + ((k : ZMod c.n)) * hwmul
  have hmod : ((((bytesToNat (shaHash msg) : Int) * w % (c.n : Int)).toNat +
      (r * w % (c.n : Int)).toNat * d) % c.n = k % c.n) :=
    (ZMod.natCast_eq_natCast_iff _ _ _).mp hcong
  have hspec : (((bytesToNat (shaHash msg) : Int) * w % (c.n : Int)).toNat) • SG +
      ((r * w % (c.n : Int)).toNat) • (d • SG) = k • SG := by
    rw [← mul_nsmul, ← add_nsmul, nsmul_mod_order SG c.n hnz, nsmul_mod_order SG c.n hnz k]
    have h2 : (((bytesToNat (shaHash msg) : Int) * w % (c.n : Int)).toNat) +
        d * ((r * w % (c.n : Int)).toNat) =
        (((bytesToNat (shaHash msg) : Int) * w % (c.n : Int)).toNat) +
        ((r * w % (c.n : Int)).toNat) * d := by ring
    rw [h2, hmod]
  rw [hspec] at hrelPt
  have hPtC1 : Pt = ⟨some px, some py⟩ := PRel_left_unique c hpf.out.pos hrelPt hrelC1
  rw [hPtC1] at hPt
  refine ⟨?_, ?_, ?_⟩
  · unfold eccVerify
    rw [if_neg (not_not_intro ⟨hr1, hr2, hs1, hs2⟩)]
    show (do
      let w3 ← modInverse s c.n
      let point1 ← pScalarMul c c.G ((bytesToNat (shaHash msg) : Int) * w3 % (c.n : Int)).toNat
      let point2 ← pScalarMul c Q (r * w3 % (c.n : Int)).toNat
      let point ← pAdd c point1 point2
      if point.isInf then pure false
      else
        match point.x with
        | none => none
        | some px2 => pure (decide (r = px2 % (c.n : Int)))) = some true
    rw [hw]
    show (do
      let point1 ← pScalarMul c c.G ((bytesToNat (shaHash msg) : Int) * w % (c.n : Int)).toNat
      let point2 ← pScalarMul c Q (r * w % (c.n : Int)).toNat
      let point ← pAdd c point1 point2
      if point.isInf then pure false
      else
        match point.x with
        | none => none
        | some px2 => pure (decide (r = px2 % (c.n : Int)))) = some true
    rw [hP1, hP2]
    show (do
      let point ← pAdd c P1 P2
      if point.isInf then pure false
      else
        match point.x with
        | none => none
        | some px2 => pure (decide (r = px2 % (c.n : Int)))) = some true
    rw [hPt]
    show some (decide (r = px % (c.n : Int))) = some true
    rw [decide_eq_true hrdef.symm]
  · intro sig hout
    unfold eccVerify
    rw [if_pos hout]
    rfl
  · intro sig w2 P1b P2b Pb hin hw2 hP1b hP2b hPb hinf
    unfold eccVerify
    rw [if_neg (not_not_intro hin)]
    show (do
      let w3 ← modInverse sig.2 c.n
      let point1 ← pScalarMul c c.G ((bytesToNat (shaHash msg) : Int) * w3 % (c.n : Int)).toNat
      let point2 ← pScalarMul c Q (sig.1 * w3 % (c.n : Int)).toNat
      let point ← pAdd c point1 point2
      if point.isInf then pure false
      else
        match point.x with
        | none => none
        | some px2 => pure (decide (sig.1 = px2 % (c.n : Int)))) = some false
    rw [hw2]
    show (do
      let point1 ← pScalarMul c c.G ((bytesToNat (shaHash msg) : Int) * w2 % (c.n : Int)).toNat
      let point2 ← pScalarMul c Q (sig.1 * w2 % (c.n : Int)).toNat
      let point ← pAdd c point1 point2
      if point.isInf then pure false
      else
        match point.x with
        | none => none
        | some px2 => pure (decide (sig.1 = px2 % (c.n : Int)))) = some false
    rw [hP1b, hP2b]
    show (do
      let point ← pAdd c P1b P2b
      if point.isInf then pure false
      else
        match point.x with
        | none => none
        | some px2 => pure (decide (sig.1 = px2 % (c.n : Int)))) = some false
    rw [hPb]
    show (if Pb.isInf then pure false
      else
        match Pb.x with
        | none => none
        | some px2 => pure (decide (sig.1 = px2 % (c.n : Int)))) = some false
    rw [hinf]
    rfl

/-- Witness for the ECDSA sign/verify cycle on the 13-point curve over `F₇`:
    private key `d = 4` (public key `(4, 5)`), ephemeral scalar `k = 6`,
    message bytes `[104, 105]`, produced signature `(5, 3)`. -/
theorem ecdsa_sign_verify_witness :
    eccVerify ⟨0, 3, 7, 1, 2, 13⟩ [104, 105] (5, 3) ⟨some 4, some 5⟩ = some true ∧
    (∀ sig : Int × Int,
      ¬ (1 ≤ sig.1 ∧ sig.1 < (13 : Int) ∧ 1 ≤ sig.2 ∧ sig.2 < (13 : Int)) →
      eccVerify ⟨0, 3, 7, 1, 2, 13⟩ [104, 105] sig ⟨some 4, some 5⟩ = some false) ∧
    (∀ sig : Int × Int, ∀ w2 P1b P2b Pb,
      (1 ≤ sig.1 ∧ sig.1 < (13 : Int) ∧ 1 ≤ sig.2 ∧ sig.2 < (13 : Int)) →
      modInverse sig.2 13 = some w2 →
      pScalarMul ⟨0, 3, 7, 1, 2, 13⟩ (ECurve.G ⟨0, 3, 7, 1, 2, 13⟩)
        ((bytesToNat (shaHash [104, 105]) : Int) * w2 % (13 : Int)).toNat = some P1b →
      pScalarMul ⟨0, 3, 7, 1, 2, 13⟩ ⟨some 4, some 5⟩ (sig.1 * w2 % (13 : Int)).toNat =
        some P2b →
      pAdd ⟨0, 3, 7, 1, 2, 13⟩ P1b P2b = some Pb → Pb.isInf = true →
      eccVerify ⟨0, 3, 7, 1, 2, 13⟩ [104, 105] sig ⟨some 4, some 5⟩ = some false) := by
  have hno2 : NoTwoTorsion ⟨0, 3, 7, 1, 2, 13⟩ := by
    show ∀ x y : ZMod 7,
      y ^ 2 = x ^ 3 + ((0 : Int) : ZMod 7) * x + ((3 : Int) : ZMod 7) → 2 * y ≠ 0
    decide
  haveI : Fact (Nat.Prime (ECurve.p ⟨0, 3, 7, 1, 2, 13⟩)) := ⟨by norm_num⟩
  exact ecdsa_sign_verify ⟨0, 3, 7, 1, 2, 13⟩ hno2 (by norm_num)
    (by decide) (by decide) (by decide) (by decide) (by decide) (by decide)
    4 6 (by decide) (by decide) (by decide) (by decide)
    ⟨some 4, some 5⟩ (by decide) [104, 105] 5 3 (by decide)

/-- C6: an envelope whose `mac` field fails HMAC verification of its
    `encrypted_data` under the system key makes `DataEncryptor.decrypt_data`
    fail closed with the integrity error, whatever the key store holds:
    neither decryption layer runs and no plaintext is returned. -/
theorem decrypt_data_fail_closed (fs : KeyFS) (env : Envelope)
    (h : hmacVerify systemHmacKey (strToBytes env.encryptedData) env.mac = false) :
    decryptData fs env = .error .integrityFailure := by
  simp [decryptData, h]

/-- Witness for the fail-closed envelope check: the empty envelope over an
    empty key store fails MAC verification and decrypts to the integrity
    error. -/
theorem decrypt_data_fail_closed_witness :
    hmacVerify systemHmacKey (strToBytes ([] : List Char)) ([] : List Char) = false ∧
    decryptData (fun _ => none) ⟨[], [], [], []⟩ = .error .integrityFailure :=
  ⟨by decide, decrypt_data_fail_closed (fun _ => none) ⟨[], [], [], []⟩ (by decide)⟩

/-- Counterexample to C7: `DataEncryptor.decrypt_field` swallows the
    integrity failure raised by `decrypt_data` (its `try/except Exception`
    catches everything) and returns `None` instead of propagating the
    error. -/
theorem decrypt_field_swallows_failure :
    decryptData (fun _ => none) ⟨['a'], [], [], []⟩ = .error .integrityFailure ∧
    decryptField (fun _ => none) ⟨['a'], [], [], []⟩ = none := by
  constructor
  · rfl
  · rfl

/-- C7 as amended: `decrypt_data` and `decrypt_and_verify_message` do raise
    key-lookup failures, but `decrypt_field` catches every failure of
    `decrypt_data` and returns `None`, and a missing *sender* public key
    makes `decrypt_and_verify_message` return the success-shaped
    `(plaintext, False)` instead of raising. -/
theorem composer_error_propagation (fs : KeyFS) (env : Envelope) (m : MsgEnvelope) :
    (∀ e, decryptData fs env = .error e → decryptField fs env = none) ∧
    (getRsaPrivateKey fs m.recipientId = none →
      decryptAndVerifyMessage fs m = .error .keyNotFound) ∧
    (∀ dn msgBytes, getRsaPrivateKey fs m.recipientId = some dn →
      rsaDecrypt m.encryptedMessage dn.1 dn.2 = some msgBytes →
      getEccPublicKey fs m.senderId = none →
      decryptAndVerifyMessage fs m = .ok (msgBytes, false)) := by
  refine ⟨?_, ?_, ?_⟩
  · intro e h
    unfold decryptField
    rw [h]
  · intro h
    unfold decryptAndVerifyMessage
    rw [h]
  · intro dn msgBytes h1 h2 h3
    unfold decryptAndVerifyMessage
    simp only [h1, h2, h3]

/-- Witness instantiating the amended C7 statement at a concrete empty key
    store, envelope, and message envelope. -/
theorem composer_error_propagation_witness :
    (∀ e, decryptData (fun _ => none) ⟨['b'], [], [], []⟩ = .error e →
      decryptField (fun _ => none) ⟨['b'], [], [], []⟩ = none) ∧
    (getRsaPrivateKey (fun _ => none) [] = none →
      decryptAndVerifyMessage (fun _ => none) ⟨[], 0, 0, [], []⟩ = .error .keyNotFound) ∧
    (∀ dn msgBytes, getRsaPrivateKey (fun _ => none) [] = some dn →
      rsaDecrypt [] dn.1 dn.2 = some msgBytes →
      getEccPublicKey (fun _ => none) [] = none →
      decryptAndVerifyMessage (fun _ => none) ⟨[], 0, 0, [], []⟩ = .ok (msgBytes, false)) :=
  composer_error_propagation (fun _ => none) ⟨['b'], [], [], []⟩ ⟨[], 0, 0, [], []⟩

theorem pubPath_length (uid : List Char) : (pubPath uid).length = uid.length + 12 := by
  simp [pubPath]

theorem privPath_length (uid : List Char) : (privPath uid).length = uid.length + 13 := by
  simp [privPath]

theorem archPubPath_length (uid ts : List Char) :
    (archPubPath uid ts).length = uid.length + ts.length + 17 := by
  simp [archPubPath]
  omega

theorem archPrivPath_length (uid ts : List Char) :
    (archPrivPath uid ts).length = uid.length + ts.length + 18 := by
  simp [archPrivPath]
  omega

/-- C8: if an identity has stored public and private key records, then after
    `rotate_keys` (with the generated bundle and the clock timestamp passed
    in) the pre-rotation records sit unchanged under the timestamped archive
    names, and `load_public_keys`/`load_private_keys` return exactly the
    freshly generated records — which differ from the archived ones whenever
    the generator produced a different record. -/
theorem rotate_keys_archives (fs : KeyFS) (uid ts : List Char) (fresh : KeyBundle)
    (pubOld : PubRecord) (privOld : PrivRecord)
    (hpub : fs (pubPath uid) = some (.pub pubOld))
    (hpriv : fs (privPath uid) = some (.priv privOld)) :
    rotateKeys fs uid ts fresh (archPubPath uid ts) = some (.pub pubOld) ∧
    rotateKeys fs uid ts fresh (archPrivPath uid ts) = some (.priv privOld) ∧
    loadPublicKeys (rotateKeys fs uid ts fresh) uid = some fresh.pub ∧
    loadPrivateKeys (rotateKeys fs uid ts fresh) uid = some fresh.priv ∧
    (fresh.pub ≠ pubOld → loadPublicKeys (rotateKeys fs uid ts fresh) uid ≠ some pubOld) := by
  have hVP : privPath uid ≠ pubPath uid := fun h => by
    have := congrArg List.length h
    rw [privPath_length, pubPath_length] at this
    omega
  have hVA : privPath uid ≠ archPubPath uid ts := fun h => by
    have := congrArg List.length h
    rw [privPath_length, archPubPath_length] at this
    omega
  have hAV : archPubPath uid ts ≠ privPath uid := fun h => hVA h.symm
  have hAP : archPubPath uid ts ≠ pubPath uid := fun h => by
    have := congrArg List.length h
    rw [archPubPath_length, pubPath_length] at this
    omega
  have hAB : archPubPath uid ts ≠ archPrivPath uid ts := fun h => by
    have := congrArg List.length h
    rw [archPubPath_length, archPrivPath_length] at this
    omega
  have hBV : archPrivPath uid ts ≠ privPath uid := fun h => by
    have := congrArg List.length h
    rw [archPrivPath_length, privPath_length] at this
    omega
  have hBP : archPrivPath uid ts ≠ pubPath uid := fun h => by
    have := congrArg List.length h
    rw [archPrivPath_length, pubPath_length] at this
    omega
  have hPV : pubPath uid ≠ privPath uid := fun h => hVP h.symm
  have hfs1priv : (fsSet (fsSet fs (archPubPath uid ts) (some (.pub pubOld)))
      (pubPath uid) none) (privPath uid) = some (.priv privOld) := by
    simp only [fsSet, if_neg hVP, if_neg hVA, hpriv]
  have hrot : rotateKeys fs uid ts fresh =
      saveKeys (fsSet (fsSet (fsSet (fsSet fs (archPubPath uid ts) (some (.pub pubOld)))
        (pubPath uid) none) (archPrivPath uid ts) (some (.priv privOld)))
        (privPath uid) none) uid fresh := by
    unfold rotateKeys
    rw [hpub]
    simp only [hfs1priv]
  refine ⟨?_, ?_, ?_, ?_, ?_⟩
  · rw [hrot]
    simp only [saveKeys, fsSet, if_neg hAV, if_neg hAP, if_neg hAB, if_pos rfl, if_true]
  · rw [hrot]
    simp only [saveKeys, fsSet, if_neg hBV, if_neg hBP, if_pos rfl, if_true]
  · rw [hrot]
    unfold loadPublicKeys
    simp only [saveKeys, fsSet, if_neg hPV, if_pos rfl, if_true]
  · rw [hrot]
    unfold loadPrivateKeys
    simp only [saveKeys, fsSet, if_pos rfl, if_true]
  · intro hne
    rw [hrot]
    unfold loadPublicKeys
    simp only [saveKeys, fsSet, if_neg hPV, if_pos rfl, if_true]
    intro hcon
    exact hne (Option.some.inj hcon)

/-- Witness for key rotation on a one-user store. -/
theorem rotate_keys_archives_witness :
    (fun name => if name = pubPath ['u'] then
        some (KFile.pub ⟨['u'], 3, 35, 1, 2, [], []⟩)
      else if name = privPath ['u'] then
        some (KFile.priv ⟨['u'], 11, 35, 4, []⟩)
      else none) (pubPath ['u']) = some (KFile.pub ⟨['u'], 3, 35, 1, 2, [], []⟩) ∧
    rotateKeys (fun name => if name = pubPath ['u'] then
        some (KFile.pub ⟨['u'], 3, 35, 1, 2, [], []⟩)
      else if name = privPath ['u'] then
        some (KFile.priv ⟨['u'], 11, 35, 4, []⟩)
      else none) ['u'] ['t']
      ⟨⟨['u'], 5, 21, 6, 1, [], []⟩, ⟨['u'], 17, 21, 2, []⟩⟩
      (archPubPath ['u'] ['t']) = some (KFile.pub ⟨['u'], 3, 35, 1, 2, [], []⟩) := by
  constructor
  · decide
  · exact (rotate_keys_archives _ ['u'] ['t']
      ⟨⟨['u'], 5, 21, 6, 1, [], []⟩, ⟨['u'], 17, 21, 2, []⟩⟩
      ⟨['u'], 3, 35, 1, 2, [], []⟩ ⟨['u'], 11, 35, 4, []⟩
      (by decide) (by decide)).1
